import Mathlib

/-!
Shallow embedding of `src/jupyterlab/dynamic_labextensions.py`.

Modelling conventions:

* Filesystem paths are lists of components (`Path := List String`); all
  modelled paths are absolute, so `os.path.join` of a root with a relative
  suffix is list append, `os.path.dirname` is `List.dropLast`,
  `os.path.basename` is the last component, and `os.path.abspath` reduces
  to `normpath` (joining with the working directory is the identity on an
  absolute path).

* The filesystem is a finite association list from paths to entries; an
  entry is a regular file (carrying its modification time and permission
  mode), a directory, or a symbolic link carrying its target path.
  Modification times are exact rationals, so the `1e-6` fudge factor of
  `_should_copy` is compared exactly.

* Fallible operating-system primitives return `Except LabError`.  A Python
  exception that escapes a function leaves the mutations performed so far
  in place, so the stateful staging operations return the final filesystem
  alongside the outcome.

* `os.walk` enumerates the source subtree; the model computes that
  enumeration from the filesystem association list (`walkEntries`).  The
  enumeration order of siblings is unspecified in the source (directory
  scan order); no theorem below depends on it.
-/

namespace DynLabext

abbrev Path := List String

def emptyStr : String := ""
def dotStr : String := "."
def dotdotStr : String := ".."

/-- One component step of `posixpath.normpath` over component lists:
empty and `.` components are dropped, `..` pops the last component
(absolute-path semantics), anything else is appended. -/
def normStep (acc : Path) (c : String) : Path :=
  if c = emptyStr ∨ c = dotStr then acc
  else if c = dotdotStr then acc.dropLast
  else acc ++ [c]

/-- `posixpath.normpath` on an absolute path given as components. -/
def normpath (p : Path) : Path := p.foldl normStep []

/-- `posixpath.basename` of a component path. -/
def basename (p : Path) : String := (p.getLast?).getD emptyStr

/-- `posixpath.dirname` of a component path. -/
def dirname (p : Path) : Path := p.dropLast

/-- `os.path.abspath`: all modelled paths are absolute, so this is `normpath`. -/
def abspath (p : Path) : Path := normpath p

/-- The non-empty ascending chain of initial segments of a path, used to
model recursive directory creation (`os.makedirs`). -/
def initsOf : Path → List Path
  | [] => []
  | c :: rest => [c] :: (initsOf rest).map (fun q => c :: q)

/-- A filesystem entry: regular file (mtime, permission mode), directory,
or symbolic link with its target. -/
inductive Entry where
  | file (mtime : ℚ) (mode : Nat)
  | dir
  | symlink (target : Path)
deriving DecidableEq

def Entry.isLink : Entry → Bool
  | .symlink _ => true
  | _ => false

/-- The filesystem: an association list from absolute paths to entries. -/
structure FS where
  entries : List (Path × Entry)
deriving DecidableEq

def alookup (k : Path) : List (Path × Entry) → Option Entry
  | [] => none
  | kv :: r => if kv.1 = k then some kv.2 else alookup k r

def eraseKey (k : Path) : List (Path × Entry) → List (Path × Entry)
  | [] => []
  | kv :: r => if kv.1 = k then eraseKey k r else kv :: eraseKey k r

def pruneTree (k : Path) : List (Path × Entry) → List (Path × Entry)
  | [] => []
  | kv :: r => if k <+: kv.1 then pruneTree k r else kv :: pruneTree k r

def fsLookup (fs : FS) (k : Path) : Option Entry := alookup k fs.entries

def fsInsert (fs : FS) (k : Path) (v : Entry) : FS := ⟨(k, v) :: eraseKey k fs.entries⟩

/-- `os.remove` / `os.unlink`: delete one directory entry (a symbolic link
itself, never its target). -/
def fsRemove (fs : FS) (k : Path) : FS := ⟨eraseKey k fs.entries⟩

/-- `shutil.rmtree`: delete the entry and every entry below it. -/
def rmtree (fs : FS) (k : Path) : FS := ⟨pruneTree k fs.entries⟩

/-- `fs` contains no symbolic links (side condition used by the copy-mode
idempotence theorem). -/
def FS.noLinks (fs : FS) : Bool := fs.entries.all (fun kv => !kv.2.isLink)

/-- Resolve the entry at a path, following whole-path symbolic links, with
fuel to rule out link cycles (a cycle resolves to `none`, matching the
`ELOOP` failure of the underlying system calls). -/
def resolveEntry (fs : FS) : Nat → Path → Option Entry
  | 0, _ => none
  | fuel + 1, p =>
    match fsLookup fs p with
    | some (.symlink t) => resolveEntry fs fuel t
    | r => r

def fsFuel (fs : FS) : Nat := fs.entries.length + 1

/-- `os.path.lexists`: the directory entry itself exists (a dangling
symbolic link counts). -/
def os_lexists (fs : FS) (p : Path) : Bool := (fsLookup fs p).isSome

/-- `os.path.exists`: follows symbolic links, false for dangling links. -/
def os_path_exists (fs : FS) (p : Path) : Bool := (resolveEntry fs (fsFuel fs) p).isSome

/-- `os.path.islink`. -/
def os_islink (fs : FS) (p : Path) : Bool :=
  match fsLookup fs p with
  | some (.symlink _) => true
  | _ => false

/-- `os.path.isdir`: follows symbolic links. -/
def os_isdir (fs : FS) (p : Path) : Bool :=
  match resolveEntry fs (fsFuel fs) p with
  | some .dir => true
  | _ => false

/-- `os.stat` restricted to the fields the code reads (`st_mtime` and the
permission mode), following symbolic links; `none` when the call would
raise `OSError`. -/
def statFile (fs : FS) (p : Path) : Option (ℚ × Nat) :=
  match resolveEntry fs (fsFuel fs) p with
  | some (.file mt md) => some (mt, md)
  | _ => none

/-- The error taxonomy of the embedded code. `nameError` is Python's
`NameError`, carrying the undefined name: the conflict branch of
`_get_labextension_dir` (line 301) references `ArgumentConflict`, a name
that is neither imported nor defined in the module, and a call evaluates
the callable before its arguments, so the statement fails with
`NameError` before the selector-enumerating message is formatted;
`notASymlink` is the `ValueError` of the link branch (which formats the
source path into the message, as the source does); `fileExists` stands
for `FileExistsError` from `os.symlink`/`os.mkdir`; `copyError` for a
failing `shutil.copy2`. -/
inductive LabError where
  | nameError (missing : String)
  | typeError (msg : String)
  | notASymlink (p : Path)
  | fileExists (p : Path)
  | osError (p : Path)
  | copyError (src dest : Path)
deriving DecidableEq

def os_stat (fs : FS) (p : Path) : Except LabError (ℚ × Nat) :=
  match statFile fs p with
  | some st => .ok st
  | none => .error (.osError p)

/-- Embeds `_should_copy` (source lines 231-256): true when the
destination is missing, otherwise stale iff the source modification time
exceeds the destination one by more than `1e-6`.  The function is
read-only: it takes the filesystem and returns only the verdict. -/
def _should_copy (fs : FS) (src dest : Path) : Except LabError Bool :=
  if os_path_exists fs dest = false then .ok true
  else
    match os_stat fs src with
    | .error e => .error e
    | .ok s =>
      match os_stat fs dest with
      | .error e => .error e
      | .ok d => if s.1 - d.1 > (1e-6 : ℚ) then .ok true else .ok false

/-- `shutil.copy2`: copy the file, preserving modification time and
permission bits; fails when the source cannot be read. -/
def copy2 (fs : FS) (src dest : Path) : Except LabError FS :=
  match statFile fs src with
  | some st => .ok (fsInsert fs dest (.file st.1 st.2))
  | none => .error (.copyError src dest)

/-- Embeds `_maybe_copy` (source lines 259-275).  The boolean reports
whether a copy was performed. -/
def _maybe_copy (fs : FS) (src dest : Path) : Except LabError (FS × Bool) :=
  match _should_copy fs src dest with
  | .error e => .error e
  | .ok true =>
    match copy2 fs src dest with
    | .error e => .error e
    | .ok fs1 => .ok (fs1, true)
  | .ok false => .ok (fs, false)

/-- Worker for `os.makedirs` over the chain of initial segments of the
path: existing directories are passed through, an existing non-directory
entry raises, missing components are created.  `exist_ok` only tolerates
the final component already existing as a directory. -/
def mkdirsGo (exist_ok : Bool) : FS → List Path → Except LabError FS
  | fs, [] => .ok fs
  | fs, [q] =>
    if os_isdir fs q then (if exist_ok then .ok fs else .error (.fileExists q))
    else if os_lexists fs q then .error (.fileExists q)
    else .ok (fsInsert fs q .dir)
  | fs, q :: q2 :: rest =>
    if os_isdir fs q then mkdirsGo exist_ok fs (q2 :: rest)
    else if os_lexists fs q then .error (.fileExists q)
    else mkdirsGo exist_ok (fsInsert fs q .dir) (q2 :: rest)

def makedirs (fs : FS) (p : Path) (exist_ok : Bool) : Except LabError FS :=
  mkdirsGo exist_ok fs (initsOf p)

/-- `jupyter_core.utils.ensure_dir_exists`: `os.makedirs(..., exist_ok=True)`. -/
def ensure_dir_exists (fs : FS) (p : Path) : Except LabError FS := makedirs fs p true

/-- `os.symlink(src, dst)`: fails with `FileExistsError` when any entry
(including a dangling symbolic link) already occupies `dst`. -/
def os_symlink (fs : FS) (src dst : Path) : Except LabError FS :=
  if os_lexists fs dst then .error (.fileExists dst)
  else .ok (fsInsert fs dst (.symlink src))

/-- The environment-supplied well-known locations consumed by
`_get_labextension_dir`: `jupyter_data_dir()`, `ENV_JUPYTER_PATH[0]` and
`SYSTEM_JUPYTER_PATH[0]`. -/
structure Env where
  jupyter_data_dir : Path
  env_jupyter_path0 : Path
  system_jupyter_path0 : Path
deriving DecidableEq

def labextName : String := "labextensions"
def shareName : String := "share"
def jupyterName : String := "jupyter"
def userName : String := "user"
def prefixName : String := "prefix"
def labdirName : String := "labextensions_dir"
def sysPrefixName : String := "sys_prefix"
def trueRepr : String := "True"
def falseRepr : String := "False"
def noneRepr : String := "None"
def eqSign : String := "="
def quoteStr : String := "'"
def slashStr : String := "/"
def argumentConflictName : String := "ArgumentConflict"
def pathTypeMsg : String :=
  "path must be a string pointing to a single extension to install; call this function multiple times to install multiple extensions"

/-- Python truthiness of an optional path argument (`None` and the empty
string are falsy). -/
def pathTruthy : Option Path → Bool
  | none => false
  | some p => !p.isEmpty

/-- The value of one location selector as the conflict check sees it. -/
inductive SelVal where
  | bool (b : Bool)
  | path (p : Option Path)
deriving DecidableEq

def SelVal.truthy : SelVal → Bool
  | .bool b => b
  | .path p => pathTruthy p

/-- Python `repr` of a selector value, as `'{}={!r}'.format(n, v)` renders
it (paths rendered through the `/`-joined string they stand for). -/
def SelVal.reprPy : SelVal → String
  | .bool true => trueRepr
  | .bool false => falseRepr
  | .path none => noneRepr
  | .path (some p) => quoteStr ++ slashStr ++ String.intercalate slashStr p ++ quoteStr

def selEntry (n : String) (v : SelVal) : String := n ++ eqSign ++ v.reprPy

/-- The `conflicting` list of source lines 293-298, in its declaration
order: `user`, `prefix`, `labextensions_dir`, `sys_prefix`. -/
def conflictingPairs (user : Bool) (pfx labextensions_dir : Option Path) (sysPrefix : Bool) :
    List (String × SelVal) :=
  [(userName, .bool user), (prefixName, .path pfx),
   (labdirName, .path labextensions_dir), (sysPrefixName, .bool sysPrefix)]

/-- The `conflicting_set` list comprehension of source line 299: one
formatted `name=value` entry per truthy selector, in declaration order. -/
def conflicting_set (user : Bool) (pfx labextensions_dir : Option Path) (sysPrefix : Bool) :
    List String :=
  (conflictingPairs user pfx labextensions_dir sysPrefix).filterMap
    (fun nv => if nv.2.truthy then some (selEntry nv.1 nv.2) else none)

/-- Embeds `_get_labextension_dir` (source lines 278-314).  The `prefix`
parameter is called `pfx` here.  The selector-to-root mapping follows the
source's `if`/`elif` chain.  The conflict branch (lines 300-303) attempts
`raise ArgumentConflict(...)`, but `ArgumentConflict` is neither imported
nor defined in the module, so the branch actually raises
`NameError: name 'ArgumentConflict' is not defined` — before the message
is formatted, since Python evaluates the callable first. -/
def _get_labextension_dir (env : Env) (user sysPrefix : Bool)
    (pfx labextensions_dir : Option Path) : Except LabError Path :=
  let cs := conflicting_set user pfx labextensions_dir sysPrefix
  if 1 < cs.length then
    .error (.nameError argumentConflictName)
  else if user then .ok (env.jupyter_data_dir ++ [labextName])
  else if sysPrefix then .ok (env.env_jupyter_path0 ++ [labextName])
  else if pathTruthy pfx then .ok (pfx.getD [] ++ [shareName, jupyterName, labextName])
  else if pathTruthy labextensions_dir then .ok (labextensions_dir.getD [])
  else .ok (env.system_jupyter_path0 ++ [labextName])

/-- Embeds source lines 96-102: under `overwrite`, an existing destination
entry is removed first, recursively exactly when it is a real directory
(not a symbolic link), otherwise by a single unlink. -/
def _overwrite_remove (fs : FS) (full_dest : Path) : FS :=
  if os_lexists fs full_dest then
    if os_isdir fs full_dest = true ∧ os_islink fs full_dest = false then rmtree fs full_dest
    else fsRemove fs full_dest
  else fs

/-- The path of `k` relative to `root` when `k` lies in the subtree rooted
at `root` (`some []` for the root itself). -/
def relUnder (root k : Path) : Option Path :=
  if root <+: k then some (k.drop root.length) else none

/-- The directories `os.walk` visits under `root`, as paths relative to
`root` (`[]` is the root itself). -/
def walkRelDirs (fs : FS) (root : Path) : List Path :=
  fs.entries.filterMap (fun kv =>
    match kv.2 with
    | .dir => relUnder root kv.1
    | _ => none)

/-- The file names directly inside the directory `d` (relative to `root`). -/
def walkFilesIn (fs : FS) (root d : Path) : List String :=
  fs.entries.filterMap (fun kv =>
    match kv.2 with
    | .file _ _ =>
      match relUnder root kv.1 with
      | some r => if r ≠ [] ∧ r.dropLast = d then r.getLast? else none
      | none => none
    | _ => none)

/-- The `os.walk` enumeration of the subtree at `root`: each visited
directory (relative path) together with the file names inside it. -/
def walkEntries (fs : FS) (root : Path) : List (Path × List String) :=
  (walkRelDirs fs root).map (fun d => (d, walkFilesIn fs root d))

/-- The per-directory inner loop of source lines 124-127: sync every
listed file from the source directory into the destination directory.
Returns the final filesystem, the destinations actually written by
`copy2`, and the first error if one occurs (aborting the rest). -/
def copyFiles (srcDir destDir : Path) : FS → List String → FS × List Path × Option LabError
  | fs, [] => (fs, [], none)
  | fs, n :: rest =>
    match _maybe_copy fs (srcDir ++ [n]) (destDir ++ [n]) with
    | .error e => (fs, [], some e)
    | .ok fc =>
      let r := copyFiles srcDir destDir fc.1 rest
      (r.1, (if fc.2 then [destDir ++ [n]] else []) ++ r.2.1, r.2.2)

/-- One iteration of the `os.walk` loop (source lines 118-127): ensure the
mirrored destination directory exists, then sync its files. -/
def stepDir (srcRoot destRoot : Path) (fs : FS) (dn : Path × List String) :
    FS × List Path × Option LabError :=
  let dest_dir := destRoot ++ dn.1
  match (if os_path_exists fs dest_dir then Except.ok fs else makedirs fs dest_dir false) with
  | .error e => (fs, [], some e)
  | .ok fs1 => copyFiles (srcRoot ++ dn.1) dest_dir fs1 dn.2

/-- The full `os.walk` loop of source lines 118-127 over a precomputed
enumeration: process each directory in order, aborting on the first
error and leaving earlier mutations in place. -/
def stageDirs (srcRoot destRoot : Path) : FS → List (Path × List String) →
    FS × List Path × Option LabError
  | fs, [] => (fs, [], none)
  | fs, dn :: rest =>
    match stepDir srcRoot destRoot fs dn with
    | (fs1, lg, some e) => (fs1, lg, some e)
    | (fs1, lg, none) =>
      let r := stageDirs srcRoot destRoot fs1 rest
      (r.1, lg ++ r.2.1, r.2.2)

/-- The link-mode branch of `develop_labextension` (source lines 107-114,
plus the function's return): create the symbolic link when the (link
following) existence check fails, tolerate an existing symbolic link,
raise `ValueError` for an existing non-link. -/
def linkStage (fs : FS) (pa full_dest : Path) :
    FS × List Path × Except LabError Path :=
  if os_path_exists fs full_dest = false then
    match os_symlink fs pa full_dest with
    | .error e => (fs, [], .error e)
    | .ok fs4 => (fs4, [], .ok full_dest)
  else if os_islink fs full_dest = false then (fs, [], .error (.notASymlink pa))
  else (fs, [], .ok full_dest)

/-- The `path` argument of `develop_labextension`: a single path, or a
list/tuple (which the code rejects with `TypeError`). -/
inductive PyPath where
  | str (p : Path)
  | list (ps : List Path)
deriving DecidableEq

deriving instance DecidableEq for Except

/-- Result of one staging call: the final filesystem (also on failure,
since Python exceptions keep prior mutations), the destinations written by
`copy2`, and the returned path or the raised error. -/
structure StageResult where
  fs : FS
  copied : List Path
  res : Except LabError Path
deriving DecidableEq

/-- Embeds `develop_labextension` (source lines 44-132).  The `sys_prefix`
keyword is called `sysPrefix` here.  Steps, in source order: resolve the
destination root, ensure it exists, reject list/tuple paths, default the
destination name to `basename(normpath(path))`, remove an existing
destination under `overwrite`, ensure the parent directory, then branch on
link-mode / directory-copy / file-copy and return `full_dest`. -/
def develop_labextension (env : Env) (fs0 : FS) (path : PyPath)
    (symlink overwrite user : Bool) (labextensions_dir : Option Path)
    (destination : Option Path) (sysPrefix : Bool) : StageResult :=
  match _get_labextension_dir env user sysPrefix none labextensions_dir with
  | .error e => ⟨fs0, [], .error e⟩
  | .ok labext =>
    match ensure_dir_exists fs0 labext with
    | .error e => ⟨fs0, [], .error e⟩
    | .ok fs1 =>
      match path with
      | .list _ => ⟨fs1, [], .error (.typeError pathTypeMsg)⟩
      | .str p =>
        let dest : Path :=
          match destination with
          | none => [basename (normpath p)]
          | some d => if d.isEmpty then [basename (normpath p)] else d
        let full_dest := normpath (labext ++ dest)
        let fs2 := if overwrite then _overwrite_remove fs1 full_dest else fs1
        match makedirs fs2 (dirname full_dest) true with
        | .error e => ⟨fs2, [], .error e⟩
        | .ok fs3 =>
          if symlink then
            let r := linkStage fs3 (abspath p) full_dest
            ⟨r.1, r.2.1, r.2.2⟩
          else if os_isdir fs3 p then
            let srcAbs := abspath p
            match stageDirs srcAbs full_dest fs3 (walkEntries fs3 srcAbs) with
            | (fs4, lg, some e) => ⟨fs4, lg, .error e⟩
            | (fs4, lg, none) => ⟨fs4, lg, .ok full_dest⟩
          else
            match _maybe_copy fs3 p full_dest with
            | .error e => ⟨fs3, [], .error e⟩
            | .ok fc => ⟨fc.1, if fc.2 then [full_dest] else [], .ok full_dest⟩

/-- Embeds `develop_labextension_py` (source lines 135-159) once the
module metadata has been fetched: each declared `(src, dest)` pair is
staged in declaration order by `develop_labextension`; the first failure
aborts the remaining pairs while keeping earlier mutations. -/
def develop_labextension_py (env : Env) (base_path : Path)
    (user sysPrefix overwrite symlink : Bool) (labextensions_dir : Option Path) :
    FS → List (Path × Path) → FS × Except LabError (List Path)
  | fs, [] => (fs, .ok [])
  | fs, pr :: rest =>
    let r := develop_labextension env fs (.str (base_path ++ pr.1)) symlink overwrite user
        labextensions_dir (some pr.2) sysPrefix
    match r.res with
    | .error e => (r.fs, .error e)
    | .ok fd =>
      match develop_labextension_py env base_path user sysPrefix overwrite symlink
          labextensions_dir r.fs rest with
      | (fs2, .ok ds) => (fs2, .ok (fd :: ds))
      | (fs2, .error e) => (fs2, .error e)


/-! Basic lemmas about the association-list filesystem. -/

theorem alookup_eraseKey_ne {k q : Path} (h : q ≠ k) :
    ∀ l : List (Path × Entry), alookup q (eraseKey k l) = alookup q l
  | [] => rfl
  | kv :: r => by
    have hkq : k ≠ q := fun hh => h hh.symm
    by_cases hk : kv.1 = k
    · have hq : kv.1 ≠ q := by rw [hk]; exact hkq
      simp [eraseKey, alookup, hk, hq, hkq, alookup_eraseKey_ne h r]
    · by_cases hq : kv.1 = q <;>
        simp [eraseKey, alookup, hk, hq, hkq, h, alookup_eraseKey_ne h r]

theorem alookup_eraseKey_self (k : Path) :
    ∀ l : List (Path × Entry), alookup k (eraseKey k l) = none
  | [] => rfl
  | kv :: r => by
    by_cases hk : kv.1 = k <;> simp [eraseKey, alookup, hk, alookup_eraseKey_self k r]

theorem fsLookup_insert (fs : FS) (k : Path) (v : Entry) (q : Path) :
    fsLookup (fsInsert fs k v) q = if q = k then some v else fsLookup fs q := by
  by_cases h : q = k
  · simp [fsLookup, fsInsert, alookup, h, alookup_eraseKey_self]
  · have h2 : k ≠ q := fun hh => h hh.symm
    simp [fsLookup, fsInsert, alookup, h, h2, alookup_eraseKey_ne h]

theorem alookup_pruneTree {k q : Path} (h : ¬ k <+: q) :
    ∀ l : List (Path × Entry), alookup q (pruneTree k l) = alookup q l
  | [] => rfl
  | kv :: r => by
    by_cases hp : k <+: kv.1
    · have hq : kv.1 ≠ q := by
        intro hh; exact h (hh ▸ hp)
      simp [pruneTree, alookup, hp, hq, h, alookup_pruneTree h r]
    · by_cases hq : kv.1 = q <;> simp [pruneTree, alookup, hp, hq, h, alookup_pruneTree h r]

theorem alookup_mem {k : Path} {v : Entry} :
    ∀ {l : List (Path × Entry)}, alookup k l = some v → (k, v) ∈ l := by
  intro l
  induction l with
  | nil => intro h; exact absurd h (by simp [alookup])
  | cons kv r ih =>
    intro h
    by_cases hk : kv.1 = k
    · rw [alookup, if_pos hk] at h
      obtain ⟨k1, v1⟩ := kv
      cases hk
      cases Option.some.inj h
      exact List.mem_cons_self _ _
    · rw [alookup, if_neg hk] at h
      exact .tail _ (ih h)

/-! Lemmas about symbolic-link resolution. -/

theorem noLinks_lookup {fs : FS} (h : fs.noLinks = true) (k : Path) {t : Path} :
    fsLookup fs k ≠ some (.symlink t) := by
  intro hl
  have hmem := alookup_mem hl
  have := (List.all_eq_true.mp h) _ hmem
  simp [Entry.isLink] at this

theorem resolveEntry_noLinks {fs : FS} (h : fs.noLinks = true) (n : Nat) (p : Path) :
    resolveEntry fs (n + 1) p = fsLookup fs p := by
  rw [resolveEntry]
  cases hl : fsLookup fs p with
  | none => rfl
  | some e =>
    cases e with
    | symlink t => exact absurd hl (noLinks_lookup h p)
    | file mt md => rfl
    | dir => rfl

theorem resolveEntry_fuel_noLinks {fs : FS} (h : fs.noLinks = true) (p : Path) :
    resolveEntry fs (fsFuel fs) p = fsLookup fs p :=
  resolveEntry_noLinks h fs.entries.length p

theorem os_path_exists_noLinks {fs : FS} (h : fs.noLinks = true) (p : Path) :
    os_path_exists fs p = os_lexists fs p := by
  rw [os_path_exists, os_lexists, resolveEntry_fuel_noLinks h]

theorem os_isdir_noLinks {fs : FS} (h : fs.noLinks = true) (p : Path) :
    os_isdir fs p = match fsLookup fs p with | some .dir => true | _ => false := by
  rw [os_isdir, resolveEntry_fuel_noLinks h]

theorem statFile_noLinks {fs : FS} (h : fs.noLinks = true) (p : Path) :
    statFile fs p = match fsLookup fs p with
      | some (.file mt md) => some (mt, md)
      | _ => none := by
  rw [statFile, resolveEntry_fuel_noLinks h]

theorem resolveEntry_mono {fs : FS} :
    ∀ {n m : Nat} {p : Path} {e : Entry},
      resolveEntry fs n p = some e → n ≤ m → resolveEntry fs m p = some e := by
  intro n
  induction n with
  | zero => intro m p e h; exact absurd h (by rw [resolveEntry]; exact fun hh => by cases hh)
  | succ k ih =>
    intro m p e h hle
    obtain ⟨m', rfl⟩ : ∃ m', m = m' + 1 := by
      cases m with
      | zero => exact absurd hle (by omega)
      | succ m' => exact ⟨m', rfl⟩
    rw [resolveEntry] at h ⊢
    cases hl : fsLookup fs p with
    | none => rw [hl] at h; exact h
    | some e2 =>
      cases e2 with
      | symlink t => rw [hl] at h; exact ih h (by omega)
      | file mt md => rw [hl] at h; exact h
      | dir => rw [hl] at h; exact h

theorem lookup_len_pos {fs : FS} {k : Path} {v : Entry} (h : fsLookup fs k = some v) :
    1 ≤ fs.entries.length := by
  have := alookup_mem h
  cases hl : fs.entries with
  | nil => rw [hl] at this; cases this
  | cons a r => simp [hl]


/-! Destination resolution (claims C1 and C2). -/

/-- When at least two selectors are truthy, `_get_labextension_dir`
reaches the raise at line 301, which fails with `NameError` because the
name `ArgumentConflict` is undefined. -/
theorem getdir_conflict (env : Env) (u sp : Bool) (pfx lab : Option Path)
    (h : 2 ≤ (conflicting_set u pfx lab sp).length) :
    _get_labextension_dir env u sp pfx lab =
      .error (.nameError argumentConflictName) := by
  rw [_get_labextension_dir]
  exact if_pos (by omega)

def cexPath : Path := ["opt"]

/-- C1 (code bug): the claim — and the code's evident intent, since
lines 293-299 build the `name=value` enumeration for exactly this error —
is that with two or more truthy selectors resolution fails with a
`ConflictingSelectors` (`ArgumentConflict`) error enumerating the set
selectors.  But `ArgumentConflict` is neither imported nor defined in the
module, so the raise at line 301 fails with
`NameError: name 'ArgumentConflict' is not defined`, before the message
is ever formatted.  This theorem evaluates the embedded code on the
conflicting inputs: resolution fails with the `NameError` (carrying only
the undefined name, no selector enumeration), and a staging call whose
resolution conflicts returns that failure with the filesystem untouched
and nothing copied (the no-mutation part of the claim does hold). -/
theorem C1_conflicting_selectors (env : Env) (fs0 : FS) (u sp : Bool)
    (pfx lab : Option Path)
    (h : 2 ≤ (conflicting_set u pfx lab sp).length) :
    _get_labextension_dir env u sp pfx lab =
      .error (.nameError argumentConflictName)
    ∧ (∀ (path : PyPath) (sym ow : Bool) (dst : Option Path),
        2 ≤ (conflicting_set u none lab sp).length →
        develop_labextension env fs0 path sym ow u lab dst sp =
          ⟨fs0, [], .error (.nameError argumentConflictName)⟩) := by
  refine ⟨getdir_conflict env u sp pfx lab h, ?_⟩
  intro path sym ow dst h2
  rw [develop_labextension, getdir_conflict env u sp none lab h2]

/-- Witness for `C1_conflicting_selectors` at the concrete failing
inputs: `user=True` with `prefix='/opt'` for the resolver, and `user=True`
with `labextensions_dir='/opt'` for a staging call (the public staging
entry point does not expose `prefix`). -/
theorem C1_conflicting_selectors_witness :
    _get_labextension_dir ⟨["jd"], ["ej"], ["sj"]⟩ true false (some cexPath) none =
      .error (.nameError argumentConflictName)
    ∧ develop_labextension ⟨["jd"], ["ej"], ["sj"]⟩ ⟨[]⟩ (.str ["x"]) true false true
        (some cexPath) none false =
      ⟨⟨[]⟩, [], .error (.nameError argumentConflictName)⟩ :=
  ⟨(C1_conflicting_selectors ⟨["jd"], ["ej"], ["sj"]⟩ ⟨[]⟩ true false (some cexPath)
      none (by decide)).1,
   (C1_conflicting_selectors ⟨["jd"], ["ej"], ["sj"]⟩ ⟨[]⟩ true false none
      (some cexPath) (by decide)).2 (.str ["x"]) true false none (by decide)⟩

/-- C2: the selector-to-root mapping of `_get_labextension_dir`:
user-scope maps to the user data directory joined with `labextensions`;
environment-scope to `ENV_JUPYTER_PATH[0]` joined with `labextensions`;
an explicit prefix to `prefix/share/jupyter/labextensions`; an explicit
`labextensions_dir` is returned verbatim; and with no selector set the
result is `SYSTEM_JUPYTER_PATH[0]` joined with `labextensions`. -/
theorem C2_selector_mapping (env : Env) :
    _get_labextension_dir env true false none none =
      .ok (env.jupyter_data_dir ++ [labextName])
    ∧ _get_labextension_dir env false true none none =
      .ok (env.env_jupyter_path0 ++ [labextName])
    ∧ (∀ pr : Path, pr ≠ [] →
        _get_labextension_dir env false false (some pr) none =
          .ok (pr ++ [shareName, jupyterName, labextName]))
    ∧ (∀ d : Path, d ≠ [] →
        _get_labextension_dir env false false none (some d) = .ok d)
    ∧ _get_labextension_dir env false false none none =
      .ok (env.system_jupyter_path0 ++ [labextName]) := by
  refine ⟨rfl, rfl, ?_, ?_, rfl⟩
  · intro pr hpr
    obtain ⟨c, cs, rfl⟩ : ∃ c cs, pr = c :: cs := by
      cases pr with
      | nil => exact absurd rfl hpr
      | cons c cs => exact ⟨c, cs, rfl⟩
    rfl
  · intro d hd
    obtain ⟨c, cs, rfl⟩ : ∃ c cs, d = c :: cs := by
      cases d with
      | nil => exact absurd rfl hd
      | cons c cs => exact ⟨c, cs, rfl⟩
    rfl

/-- Witness for `C2_selector_mapping` at a concrete environment. -/
theorem C2_selector_mapping_witness :
    _get_labextension_dir ⟨["jd"], ["ej"], ["sj"]⟩ true false none none =
      .ok ["jd", labextName]
    ∧ _get_labextension_dir ⟨["jd"], ["ej"], ["sj"]⟩ false true none none =
      .ok ["ej", labextName]
    ∧ _get_labextension_dir ⟨["jd"], ["ej"], ["sj"]⟩ false false (some cexPath) none =
      .ok ["opt", shareName, jupyterName, labextName]
    ∧ _get_labextension_dir ⟨["jd"], ["ej"], ["sj"]⟩ false false none (some cexPath) =
      .ok cexPath
    ∧ _get_labextension_dir ⟨["jd"], ["ej"], ["sj"]⟩ false false none none =
      .ok ["sj", labextName] :=
  ⟨(C2_selector_mapping _).1, (C2_selector_mapping _).2.1,
   (C2_selector_mapping _).2.2.1 cexPath (by decide),
   (C2_selector_mapping _).2.2.2.1 cexPath (by decide),
   (C2_selector_mapping _).2.2.2.2⟩

/-! Staleness check (claims C3 and C10). -/

/-- C3: `_should_copy` returns true when the destination does not exist
(whatever the source's state); when both stat calls succeed it returns
true exactly when the source modification time exceeds the destination
one by more than `1e-6`; and it returns false whenever the destination
time is at least the source time minus `1e-6`.  The embedding is a
read-only function of the filesystem: it performs no mutation by type. -/
theorem C3_staleness (fs : FS) (src dest : Path) :
    (os_path_exists fs dest = false → _should_copy fs src dest = .ok true)
    ∧ (∀ (ms md : ℚ) (mos mod : Nat), os_path_exists fs dest = true →
        statFile fs src = some (ms, mos) → statFile fs dest = some (md, mod) →
        _should_copy fs src dest = .ok (decide (ms - md > (1e-6 : ℚ)))
        ∧ (ms - (1e-6 : ℚ) ≤ md → _should_copy fs src dest = .ok false)) := by
  constructor
  · intro h
    rw [_should_copy]
    exact if_pos h
  · intro ms md mos mod hex hs hd
    have hex' : ¬ (os_path_exists fs dest = false) := by simp [hex]
    constructor
    · rw [_should_copy, if_neg hex']
      simp only [os_stat, hs, hd]
      by_cases hc : ms - md > (1e-6 : ℚ) <;> simp [hc]
    · intro hle
      have hc : ¬ (ms - md > (1e-6 : ℚ)) := by
        rw [not_lt]
        linarith
      rw [_should_copy, if_neg hex']
      simp only [os_stat, hs, hd]
      simp [hc]

def fsStaleW : FS := ⟨[(["s"], .file 5 0), (["d"], .file 0 0)]⟩

/-- Witness for `C3_staleness`: a missing destination is stale even with a
missing source; a source five time units newer is stale; in the other
direction the destination is up to date. -/
theorem C3_staleness_witness :
    _should_copy (⟨[]⟩ : FS) ["s"] ["d"] = .ok true
    ∧ _should_copy fsStaleW ["s"] ["d"] = .ok true
    ∧ _should_copy fsStaleW ["d"] ["s"] = .ok false := by
  refine ⟨(C3_staleness ⟨[]⟩ ["s"] ["d"]).1 (by decide), ?_, ?_⟩
  · have h := ((C3_staleness fsStaleW ["s"] ["d"]).2 5 0 0 0 (by decide)
      (by decide) (by decide)).1
    rw [h]
    norm_num
  · exact ((C3_staleness fsStaleW ["d"] ["s"]).2 0 5 0 0 (by decide)
      (by decide) (by decide)).2 (by norm_num)

/-- C10: when the destination does not exist, `_should_copy` is true
without consulting the source at all (the source stat — which would fail
on a missing source — is unreachable on this branch): the verdict holds
for every source path and filesystem state of the source. -/
theorem C10_missing_dest_ignores_source (fs : FS) (src dest : Path)
    (h : os_path_exists fs dest = false) :
    _should_copy fs src dest = .ok true := by
  rw [_should_copy]
  exact if_pos h

/-- Witness for `C10_missing_dest_ignores_source`: destination missing and
the source itself missing (its stat would raise), yet the verdict is
computed as stale. -/
theorem C10_missing_dest_ignores_source_witness :
    _should_copy (⟨[(["x"], .dir)]⟩ : FS) ["gone"] ["alsogone"] = .ok true
    ∧ statFile (⟨[(["x"], .dir)]⟩ : FS) ["gone"] = none :=
  ⟨C10_missing_dest_ignores_source _ _ _ (by decide), rfl⟩

/-! Overwrite removal (claim C5). -/

theorem alookup_pruneTree_under {k q : Path} (h : k <+: q) :
    ∀ l : List (Path × Entry), alookup q (pruneTree k l) = none
  | [] => rfl
  | kv :: r => by
    by_cases hp : k <+: kv.1
    · simp [pruneTree, hp, alookup_pruneTree_under h r]
    · have hq : kv.1 ≠ q := by
        intro hh
        exact hp (hh ▸ h)
      simp [pruneTree, alookup, hp, hq, alookup_pruneTree_under h r]

/-- C5: when `overwrite` finds an existing destination entry, the removal
is `shutil.rmtree` exactly when the entry is a real directory (a directory
after following links, and not itself a link), and a single `os.remove`
otherwise; in both cases the entry is gone afterwards and no path outside
the destination subtree is touched. -/
theorem C5_overwrite_removal (fs : FS) (p : Path) (h : os_lexists fs p = true) :
    (os_isdir fs p = true ∧ os_islink fs p = false →
      _overwrite_remove fs p = rmtree fs p)
    ∧ (¬ (os_isdir fs p = true ∧ os_islink fs p = false) →
      _overwrite_remove fs p = fsRemove fs p)
    ∧ fsLookup (_overwrite_remove fs p) p = none
    ∧ (∀ q : Path, ¬ p <+: q → fsLookup (_overwrite_remove fs p) q = fsLookup fs q) := by
  refine ⟨?_, ?_, ?_, ?_⟩
  · intro hc
    simp [_overwrite_remove, h, hc]
  · intro hc
    simp only [_overwrite_remove, h, if_true]
    exact if_neg hc
  · by_cases hc : os_isdir fs p = true ∧ os_islink fs p = false
    · simp only [_overwrite_remove, if_pos rfl, if_pos hc, h]
      exact alookup_pruneTree_under (List.prefix_refl p) fs.entries
    · simp only [_overwrite_remove, if_pos rfl, if_neg hc, h]
      exact alookup_eraseKey_self p fs.entries
  · intro q hq
    have hne : q ≠ p := fun hh => hq (hh ▸ List.prefix_refl p)
    by_cases hc : os_isdir fs p = true ∧ os_islink fs p = false
    · simp only [_overwrite_remove, if_pos rfl, if_pos hc, h]
      exact alookup_pruneTree hq fs.entries
    · simp only [_overwrite_remove, if_pos rfl, if_neg hc, h]
      exact alookup_eraseKey_ne hne fs.entries

def fsC5a : FS := ⟨[(["r", "x"], .dir), (["r", "x", "f"], .file 1 1), (["r", "o"], .file 2 2)]⟩
def fsC5b : FS := ⟨[(["r", "x"], .symlink ["r", "o"]), (["r", "o"], .dir)]⟩

/-- Witness for `C5_overwrite_removal`: a real directory is removed
recursively, a symbolic link (even one pointing at a directory) is removed
with a single unlink, the entry is gone, and a sibling survives. -/
theorem C5_overwrite_removal_witness :
    _overwrite_remove fsC5a ["r", "x"] = rmtree fsC5a ["r", "x"]
    ∧ fsLookup (_overwrite_remove fsC5a ["r", "x"]) ["r", "x"] = none
    ∧ fsLookup (_overwrite_remove fsC5a ["r", "x"]) ["r", "o"] = some (.file 2 2)
    ∧ _overwrite_remove fsC5b ["r", "x"] = fsRemove fsC5b ["r", "x"] := by
  refine ⟨(C5_overwrite_removal fsC5a _ (by decide)).1 ⟨by decide, by decide⟩,
    (C5_overwrite_removal fsC5a _ (by decide)).2.2.1, ?_,
    (C5_overwrite_removal fsC5b _ (by decide)).2.1 (by decide)⟩
  rw [(C5_overwrite_removal fsC5a _ (by decide)).2.2.2 ["r", "o"] (by decide)]
  decide

/-! The list-path `TypeError` (claim C8). -/

/-- C8: a list (or tuple) `path` argument raises `TypeError`, but only
after the destination root has been resolved and `ensure_dir_exists` has
run, so the call can mutate the filesystem (create the labextensions
root) before failing; the second conjunct exhibits a concrete call on an
empty filesystem whose failing result nevertheless carries a changed
filesystem. -/
theorem C8_list_path_type_error (env : Env) (fs fs1 : FS) (labext : Path)
    (u sp sym ow : Bool) (lab dst : Option Path) (ps : List Path)
    (hres : _get_labextension_dir env u sp none lab = .ok labext)
    (hens : ensure_dir_exists fs labext = .ok fs1) :
    develop_labextension env fs (.list ps) sym ow u lab dst sp =
      ⟨fs1, [], .error (.typeError pathTypeMsg)⟩
    ∧ (develop_labextension ⟨["jd"], ["ej"], ["sj"]⟩ ⟨[]⟩ (.list []) true false false
        (some cexPath) none false).fs ≠ (⟨[]⟩ : FS) := by
  constructor
  · rw [develop_labextension, hres]
    dsimp only
    rw [hens]
  · decide

/-- Witness for `C8_list_path_type_error`: on an empty filesystem the call
returns `TypeError` with the labextensions root already created. -/
theorem C8_list_path_type_error_witness :
    develop_labextension ⟨["jd"], ["ej"], ["sj"]⟩ ⟨[]⟩ (.list [["a"]]) true false false
        (some cexPath) none false =
      ⟨⟨[(cexPath, .dir)]⟩, [], .error (.typeError pathTypeMsg)⟩ :=
  (C8_list_path_type_error ⟨["jd"], ["ej"], ["sj"]⟩ ⟨[]⟩ ⟨[(cexPath, .dir)]⟩ cexPath
    false false true false (some cexPath) none [["a"]] (by decide) (by decide)).1

/-! Link-mode staging (claims C4 and C9). -/

theorem os_path_exists_of_lookup_none {fs : FS} {p : Path} (h : fsLookup fs p = none) :
    os_path_exists fs p = false := by
  rw [os_path_exists]
  show (resolveEntry fs (fs.entries.length + 1) p).isSome = false
  rw [resolveEntry, h]
  rfl

theorem resolve_fuel_of_lookup_nonlink {fs : FS} {p : Path} {e : Entry}
    (h : fsLookup fs p = some e) (hnl : e.isLink = false) :
    resolveEntry fs (fsFuel fs) p = some e := by
  show resolveEntry fs (fs.entries.length + 1) p = some e
  rw [resolveEntry, h]
  cases e with
  | symlink t => exact absurd hnl (by simp [Entry.isLink])
  | file mt md => rfl
  | dir => rfl

theorem resolve_fuel_of_link_target {fs : FS} {p t : Path} {te : Entry}
    (h1 : fsLookup fs p = some (.symlink t)) (h2 : fsLookup fs t = some te)
    (hnl : te.isLink = false) :
    resolveEntry fs (fsFuel fs) p = some te := by
  have hfuel : 2 ≤ fsFuel fs := by
    have := lookup_len_pos h1
    rw [fsFuel]
    omega
  have h2step : resolveEntry fs 2 p = some te := by
    cases te with
    | symlink t2 => exact absurd hnl (by simp [Entry.isLink])
    | file mt md => simp only [resolveEntry, h1, h2]
    | dir => simp only [resolveEntry, h1, h2]
  exact resolveEntry_mono h2step hfuel

theorem os_islink_of_lookup_link {fs : FS} {p t : Path}
    (h : fsLookup fs p = some (.symlink t)) : os_islink fs p = true := by
  rw [os_islink, h]

theorem os_islink_of_lookup_nonlink {fs : FS} {p : Path} {e : Entry}
    (h : fsLookup fs p = some e) (hnl : e.isLink = false) : os_islink fs p = false := by
  rw [os_islink, h]
  cases e with
  | symlink t => exact absurd hnl (by simp [Entry.isLink])
  | file mt md => rfl
  | dir => rfl

/-- Under a successful, mutation-free prelude (resolved root, existing
root and parent directories, no overwrite), link-mode staging is exactly
`linkStage` on the unchanged filesystem. -/
theorem develop_link_eq (env : Env) (fs : FS) (p labext dst full_dest : Path)
    (u sp : Bool) (lab : Option Path)
    (hres : _get_labextension_dir env u sp none lab = .ok labext)
    (hens : ensure_dir_exists fs labext = .ok fs)
    (hdst : dst ≠ [])
    (hfd : full_dest = normpath (labext ++ dst))
    (hmk : makedirs fs (dirname full_dest) true = .ok fs) :
    develop_labextension env fs (.str p) true false u lab (some dst) sp =
      ⟨(linkStage fs (abspath p) full_dest).1, (linkStage fs (abspath p) full_dest).2.1,
        (linkStage fs (abspath p) full_dest).2.2⟩ := by
  have hemp : dst.isEmpty = false := by
    cases dst with
    | nil => exact absurd rfl hdst
    | cons a l => rfl
  rw [develop_labextension, hres]
  dsimp only
  rw [hens]
  dsimp only
  rw [hemp]
  simp only [Bool.false_eq_true, if_false]
  rw [← hfd, hmk]
  simp

theorem linkStage_create {fs : FS} {pa fd : Path} (h : fsLookup fs fd = none) :
    linkStage fs pa fd = (fsInsert fs fd (.symlink pa), [], .ok fd) := by
  have hlex : os_lexists fs fd = false := by
    rw [os_lexists, h]
    rfl
  rw [linkStage, if_pos (os_path_exists_of_lookup_none h)]
  simp [os_symlink, hlex]

theorem linkStage_keep {fs : FS} {pa fd t : Path} {te : Entry}
    (h1 : fsLookup fs fd = some (.symlink t)) (h2 : fsLookup fs t = some te)
    (h3 : te.isLink = false) :
    linkStage fs pa fd = (fs, [], .ok fd) := by
  have hex : os_path_exists fs fd = true := by
    rw [os_path_exists, resolve_fuel_of_link_target h1 h2 h3]
    rfl
  rw [linkStage]
  simp [hex, os_islink_of_lookup_link h1]

theorem linkStage_reject {fs : FS} {pa fd : Path} {e : Entry}
    (h1 : fsLookup fs fd = some e) (h3 : e.isLink = false) :
    linkStage fs pa fd = (fs, [], .error (.notASymlink pa)) := by
  have hex : os_path_exists fs fd = true := by
    rw [os_path_exists, resolve_fuel_of_lookup_nonlink h1 h3]
    rfl
  rw [linkStage]
  simp [hex, os_islink_of_lookup_nonlink h1 h3]

/-- C4 (amended): under a mutation-free prelude with `overwrite=false`,
link-mode staging behaves as follows.  If no directory entry occupies the
destination, a symbolic link destination → absolute source is created and
the final destination path is returned.  If the destination is a symbolic
link whose target exists, the call is a no-op returning the destination
path (no error, no new filesystem object).  If the destination holds a
non-link entry, the call fails with the `ValueError` (`NotASymlinkError`).
The remaining case — a dangling symbolic link at the destination — is the
counterexample to the claim as stated: there the call raises
`FileExistsError` from `os.symlink` (see `C4_counterexample`). -/
theorem C4_link_mode (env : Env) (fs : FS) (p labext dst full_dest : Path)
    (u sp : Bool) (lab : Option Path)
    (hres : _get_labextension_dir env u sp none lab = .ok labext)
    (hens : ensure_dir_exists fs labext = .ok fs)
    (hdst : dst ≠ [])
    (hfd : full_dest = normpath (labext ++ dst))
    (hmk : makedirs fs (dirname full_dest) true = .ok fs) :
    (fsLookup fs full_dest = none →
      develop_labextension env fs (.str p) true false u lab (some dst) sp =
        ⟨fsInsert fs full_dest (.symlink (abspath p)), [], .ok full_dest⟩)
    ∧ (∀ (t : Path) (te : Entry), fsLookup fs full_dest = some (.symlink t) →
        fsLookup fs t = some te → te.isLink = false →
        develop_labextension env fs (.str p) true false u lab (some dst) sp =
          ⟨fs, [], .ok full_dest⟩)
    ∧ (∀ e : Entry, fsLookup fs full_dest = some e → e.isLink = false →
        develop_labextension env fs (.str p) true false u lab (some dst) sp =
          ⟨fs, [], .error (.notASymlink (abspath p))⟩) := by
  refine ⟨?_, ?_, ?_⟩
  · intro h1
    rw [develop_link_eq env fs p labext dst full_dest u sp lab hres hens hdst hfd hmk,
      linkStage_create h1]
  · intro t te h1 h2 h3
    rw [develop_link_eq env fs p labext dst full_dest u sp lab hres hens hdst hfd hmk,
      linkStage_keep h1 h2 h3]
  · intro e h1 h3
    rw [develop_link_eq env fs p labext dst full_dest u sp lab hres hens hdst hfd hmk,
      linkStage_reject h1 h3]

def fsC4 : FS := ⟨[(cexPath, .dir), (["opt", "foo"], .symlink ["nowhere"])]⟩

/-- C4 counterexample to the claim as stated: the destination entry exists
and is a symbolic link, but its target is missing (a dangling link), and
the re-staging call is not a no-op — it raises `FileExistsError` from
`os.symlink` (because `os.path.exists` follows the link and reports the
destination as absent).  The filesystem is left unchanged. -/
theorem C4_counterexample :
    os_lexists fsC4 ["opt", "foo"] = true
    ∧ os_islink fsC4 ["opt", "foo"] = true
    ∧ (develop_labextension ⟨["jd"], ["ej"], ["sj"]⟩ fsC4 (.str ["ext", "foo"]) true false
        false (some cexPath) (some ["foo"]) false).res = .error (.fileExists ["opt", "foo"])
    ∧ (develop_labextension ⟨["jd"], ["ej"], ["sj"]⟩ fsC4 (.str ["ext", "foo"]) true false
        false (some cexPath) (some ["foo"]) false).fs = fsC4 := by
  refine ⟨rfl, rfl, ?_, ?_⟩ <;> decide

def fsC4w1 : FS := ⟨[(cexPath, .dir)]⟩
def fsC4w2 : FS := ⟨[(cexPath, .dir), (["opt", "foo"], .symlink ["tgt"]), (["tgt"], .dir)]⟩
def fsC4w3 : FS := ⟨[(cexPath, .dir), (["opt", "foo"], .file 1 1)]⟩

/-- Witness for `C4_link_mode`: create on a free destination, no-op on an
existing live symbolic link, `ValueError` on an existing regular file. -/
theorem C4_link_mode_witness :
    develop_labextension ⟨["jd"], ["ej"], ["sj"]⟩ fsC4w1 (.str ["ext", "foo"]) true false
        false (some cexPath) (some ["foo"]) false =
      ⟨⟨[(["opt", "foo"], .symlink ["ext", "foo"]), (cexPath, .dir)]⟩, [],
        .ok ["opt", "foo"]⟩
    ∧ develop_labextension ⟨["jd"], ["ej"], ["sj"]⟩ fsC4w2 (.str ["ext", "foo"]) true false
        false (some cexPath) (some ["foo"]) false = ⟨fsC4w2, [], .ok ["opt", "foo"]⟩
    ∧ develop_labextension ⟨["jd"], ["ej"], ["sj"]⟩ fsC4w3 (.str ["ext", "foo"]) true false
        false (some cexPath) (some ["foo"]) false =
      ⟨fsC4w3, [], .error (.notASymlink ["ext", "foo"])⟩ := by
  refine ⟨?_, ?_, ?_⟩
  · exact ((C4_link_mode ⟨["jd"], ["ej"], ["sj"]⟩ fsC4w1 ["ext", "foo"] cexPath ["foo"]
      ["opt", "foo"] false false (some cexPath) (by decide) (by decide) (by decide)
      (by decide) (by decide)).1 rfl).trans (by decide)
  · exact ((C4_link_mode ⟨["jd"], ["ej"], ["sj"]⟩ fsC4w2 ["ext", "foo"] cexPath ["foo"]
      ["opt", "foo"] false false (some cexPath) (by decide) (by decide) (by decide)
      (by decide) (by decide)).2.1 ["tgt"] .dir rfl rfl rfl).trans (by decide)
  · exact ((C4_link_mode ⟨["jd"], ["ej"], ["sj"]⟩ fsC4w3 ["ext", "foo"] cexPath ["foo"]
      ["opt", "foo"] false false (some cexPath) (by decide) (by decide) (by decide)
      (by decide) (by decide)).2.2 (.file 1 1) rfl rfl).trans (by decide)

/-- C9 (amended): when the destination is a symbolic link whose target
exists, link-mode staging succeeds and leaves the link exactly as it was —
for an arbitrary link target `t`, in particular one different from the
requested source: the target is never compared with the source and never
updated.  (The link target is, however, dereferenced by the existence
check: for a dangling link the call fails instead of succeeding — see
`C9_counterexample`.) -/
theorem C9_existing_link_untouched (env : Env) (fs : FS)
    (p labext dst full_dest t : Path) (te : Entry) (u sp : Bool) (lab : Option Path)
    (hres : _get_labextension_dir env u sp none lab = .ok labext)
    (hens : ensure_dir_exists fs labext = .ok fs)
    (hdst : dst ≠ [])
    (hfd : full_dest = normpath (labext ++ dst))
    (hmk : makedirs fs (dirname full_dest) true = .ok fs)
    (h1 : fsLookup fs full_dest = some (.symlink t))
    (h2 : fsLookup fs t = some te) (h3 : te.isLink = false) :
    develop_labextension env fs (.str p) true false u lab (some dst) sp =
      ⟨fs, [], .ok full_dest⟩
    ∧ fsLookup (develop_labextension env fs (.str p) true false u lab
        (some dst) sp).fs full_dest = some (.symlink t) := by
  have h := (C4_link_mode env fs p labext dst full_dest u sp lab hres hens hdst hfd
    hmk).2.1 t te h1 h2 h3
  exact ⟨h, by rw [h]; exact h1⟩

def fsC9 : FS := ⟨[(cexPath, .dir), (["opt", "foo"], .symlink ["elsewhere"]),
  (["elsewhere"], .file 3 3)]⟩

/-- Witness for `C9_existing_link_untouched`: the existing link points at
`/elsewhere`, not at the requested source `/ext/foo`, and the call
succeeds leaving it untouched. -/
theorem C9_existing_link_untouched_witness :
    develop_labextension ⟨["jd"], ["ej"], ["sj"]⟩ fsC9 (.str ["ext", "foo"]) true false
        false (some cexPath) (some ["foo"]) false = ⟨fsC9, [], .ok ["opt", "foo"]⟩
    ∧ fsLookup (develop_labextension ⟨["jd"], ["ej"], ["sj"]⟩ fsC9 (.str ["ext", "foo"])
        true false false (some cexPath) (some ["foo"]) false).fs ["opt", "foo"] =
      some (.symlink ["elsewhere"]) :=
  C9_existing_link_untouched ⟨["jd"], ["ej"], ["sj"]⟩ fsC9 ["ext", "foo"] cexPath ["foo"]
    ["opt", "foo"] ["elsewhere"] (.file 3 3) false false (some cexPath) (by decide)
    (by decide) (by decide) (by decide) (by decide) rfl rfl rfl

def fsC9x : FS := ⟨[(cexPath, .dir), (["opt", "bar"], .symlink ["gone"])]⟩

/-- C9 counterexample to the claim as stated: the destination exists as a
symbolic link (to a missing target), yet the call does not return
successfully — the link target is dereferenced by the existence check and
the dangling case raises `FileExistsError`. -/
theorem C9_counterexample :
    os_islink fsC9x ["opt", "bar"] = true
    ∧ (develop_labextension ⟨["jd"], ["ej"], ["sj"]⟩ fsC9x (.str ["ext", "bar"]) true false
        false (some cexPath) (some ["bar"]) false).res =
      .error (.fileExists ["opt", "bar"]) := by
  refine ⟨rfl, ?_⟩
  decide

/-! Multi-target staging (claim C7). -/

theorem linkStage_ok {fs : FS} {pa fd v : Path}
    (h : (linkStage fs pa fd).2.2 = .ok v) : v = fd := by
  rw [linkStage] at h
  split at h
  · cases hsl : os_symlink fs pa fd with
    | error e => rw [hsl] at h; cases h
    | ok fs4 => rw [hsl] at h; cases h; rfl
  · split at h
    · cases h
    · cases h; rfl

/-- Every successful single staging call on a string path returns exactly
`normpath(labext ++ destination)` with the destination defaulted from the
source basename when empty. -/
theorem develop_str_ok_dest (env : Env) (fs : FS) (p d labext v : Path)
    (sym ow u sp : Bool) (lab : Option Path)
    (hres : _get_labextension_dir env u sp none lab = .ok labext)
    (h : (develop_labextension env fs (.str p) sym ow u lab (some d) sp).res = .ok v) :
    v = normpath (labext ++ (if d.isEmpty then [basename (normpath p)] else d)) := by
  rw [develop_labextension, hres] at h
  dsimp only at h
  cases hE : ensure_dir_exists fs labext with
  | error e => rw [hE] at h; cases h
  | ok fs1 =>
    rw [hE] at h
    dsimp only at h
    split at h
    · cases h
    · split at h
      · exact (linkStage_ok h).symm ▸ rfl
      · split at h
        · split at h
          · cases h
          · cases h; rfl
        · split at h
          · cases h
          · cases h; rfl

/-- C7: multi-target staging processes the declared (src, dest) pairs in
declaration order.  (a) On overall success the returned sequence is, in
order, the resolved destination path of each pair.  (b) If the pairs split
as `pre ++ bad :: post` where every pair in `pre` stages successfully and
the staging of `bad` fails, the whole call returns that failure — the
caller observes the error, not a partial result list — with the
filesystem as left by the failed call (earlier pairs remain staged), and
the `post` pairs are never attempted (the result does not depend on
them). -/
theorem C7_multi_target (env : Env) (base labext : Path) (u sp ow sym : Bool)
    (lab : Option Path)
    (hres : _get_labextension_dir env u sp none lab = .ok labext) :
    (∀ (fs fs2 : FS) (prs : List (Path × Path)) (ds : List Path),
      develop_labextension_py env base u sp ow sym lab fs prs = (fs2, .ok ds) →
      ds = prs.map (fun pr => normpath (labext ++
        (if pr.2.isEmpty then [basename (normpath (base ++ pr.1))] else pr.2))))
    ∧ (∀ (fs fsM fsB : FS) (pre post : List (Path × Path)) (bad : Path × Path)
        (ds lg : List Path) (e : LabError),
      develop_labextension_py env base u sp ow sym lab fs pre = (fsM, .ok ds) →
      develop_labextension env fsM (.str (base ++ bad.1)) sym ow u lab (some bad.2) sp =
        ⟨fsB, lg, .error e⟩ →
      develop_labextension_py env base u sp ow sym lab fs (pre ++ bad :: post) =
        (fsB, .error e)) := by
  constructor
  · intro fs fs2 prs
    induction prs generalizing fs fs2 with
    | nil =>
      intro ds h
      rw [develop_labextension_py] at h
      cases h
      rfl
    | cons pr rest ih =>
      intro ds h
      rw [develop_labextension_py] at h
      cases hr : (develop_labextension env fs (.str (base ++ pr.1)) sym ow u
          lab (some pr.2) sp).res with
      | error e => rw [hr] at h; cases h
      | ok fd =>
        rw [hr] at h
        cases hrec : develop_labextension_py env base u sp ow sym lab
            (develop_labextension env fs (.str (base ++ pr.1)) sym ow u
              lab (some pr.2) sp).fs rest with
        | mk fsI res2 =>
          cases res2 with
          | error e => rw [hrec] at h; cases h
          | ok ds2 =>
            rw [hrec] at h
            cases h
            rw [List.map_cons]
            rw [develop_str_ok_dest env fs (base ++ pr.1) pr.2 labext fd sym ow u sp
              lab hres hr]
            rw [ih _ _ _ hrec]
  · intro fs fsM fsB pre post bad ds lg e h1 h2
    induction pre generalizing fs ds with
    | nil =>
      rw [develop_labextension_py] at h1
      cases h1
      rw [List.nil_append, develop_labextension_py, h2]
    | cons x pre' ih =>
      rw [develop_labextension_py] at h1
      cases hr : (develop_labextension env fs (.str (base ++ x.1)) sym ow u
          lab (some x.2) sp).res with
      | error e2 => rw [hr] at h1; cases h1
      | ok fd =>
        rw [hr] at h1
        cases hrec : develop_labextension_py env base u sp ow sym lab
            (develop_labextension env fs (.str (base ++ x.1)) sym ow u
              lab (some x.2) sp).fs pre' with
        | mk fsI res2 =>
          cases res2 with
          | error e2 => rw [hrec] at h1; cases h1
          | ok ds2 =>
            rw [hrec] at h1
            cases h1
            rw [List.cons_append, develop_labextension_py, hr,
              ih _ _ hrec]

def fsC7 : FS := ⟨[(["r"], .dir), (["pkg"], .dir), (["pkg", "one"], .dir),
  (["pkg", "one", "f"], .file 1 1)]⟩

def fsC7staged : FS := ⟨[(["r", "x", "f"], .file 1 1), (["r", "x"], .dir),
  (["r"], .dir), (["pkg"], .dir), (["pkg", "one"], .dir),
  (["pkg", "one", "f"], .file 1 1)]⟩

/-- Witness for `C7_multi_target`, the spec's Scenario C: staging
`[(pkg/one, x), (pkg/two, y)]` where `pkg/two` does not exist stages `x`
fully, then fails with the copy error referencing `pkg/two`; the caller
sees the error together with the filesystem containing the one staged
entry, not a partial result list. -/
theorem C7_multi_target_witness :
    develop_labextension_py ⟨["jd"], ["ej"], ["sj"]⟩ ["pkg"] false false false false
        (some ["r"]) fsC7 [(["one"], ["x"]), (["two"], ["y"])] =
      (fsC7staged, .error (.copyError ["pkg", "two"] ["r", "y"])) :=
  (C7_multi_target ⟨["jd"], ["ej"], ["sj"]⟩ ["pkg"] ["r"] false false false false
    (some ["r"]) (by decide)).2 fsC7 fsC7staged fsC7staged [(["one"], ["x"])] []
    (["two"], ["y"]) [["r", "x"]] [] (.copyError ["pkg", "two"] ["r", "y"])
    (by decide) (by decide)

/-! Prefix utilities for the copy-mode idempotence development (claim C6). -/

theorem preTotal : ∀ {a b c : Path}, a <+: c → b <+: c → a <+: b ∨ b <+: a := by
  intro a
  induction a with
  | nil => intro b c _ _; exact Or.inl ⟨b, rfl⟩
  | cons x xs ih =>
    intro b c h1 h2
    cases c with
    | nil =>
      obtain ⟨u, hu⟩ := h1
      cases hu
    | cons y ys =>
      obtain ⟨u, hu⟩ := h1
      obtain ⟨hxy, hus⟩ : x = y ∧ xs ++ u = ys := by
        constructor
        · exact (List.cons.inj hu).1
        · exact (List.cons.inj hu).2
      cases b with
      | nil => exact Or.inr ⟨_, rfl⟩
      | cons z zs =>
        obtain ⟨w, hw⟩ := h2
        obtain ⟨hzy, hws⟩ : z = y ∧ zs ++ w = ys := by
          constructor
          · exact (List.cons.inj hw).1
          · exact (List.cons.inj hw).2
        cases @ih zs ys ⟨u, hus⟩ ⟨w, hws⟩ with
        | inl h =>
          obtain ⟨t, ht⟩ := h
          exact Or.inl ⟨t, by rw [hxy, ← hzy, List.cons_append, ht]⟩
        | inr h =>
          obtain ⟨t, ht⟩ := h
          exact Or.inr ⟨t, by rw [hzy, ← hxy, List.cons_append, ht]⟩

theorem preOfAppend {q r s : Path} (h : q <+: r ++ s) : q <+: r ∨ r <+: q :=
  preTotal h ⟨s, rfl⟩

theorem mem_initsOf_pre : ∀ {p q : Path}, q ∈ initsOf p → q <+: p := by
  intro p
  induction p with
  | nil => intro q h; cases h
  | cons c rest ih =>
    intro q h
    rw [initsOf] at h
    cases h with
    | head => exact ⟨rest, rfl⟩
    | tail _ hmem =>
      obtain ⟨q2, hq2, rfl⟩ := List.mem_map.mp hmem
      obtain ⟨t, ht⟩ := ih hq2
      exact ⟨t, by rw [List.cons_append, ht]⟩

theorem mem_initsOf_self : ∀ {p : Path}, p ≠ [] → p ∈ initsOf p := by
  intro p
  induction p with
  | nil => intro h; exact absurd rfl h
  | cons c rest ih =>
    intro _
    rw [initsOf]
    by_cases hr : rest = []
    · subst hr
      exact List.mem_cons_self _ _
    · exact List.mem_cons_of_mem _ (List.mem_map.mpr ⟨rest, ih hr, rfl⟩)

/-- In the presence of the subtree-disjointness side conditions, no key
comparable to the destination root lies in the source subtree. -/
theorem not_src_of_destR_comparable {srcR destR k : Path}
    (hd1 : ¬ srcR <+: destR) (hd2 : ¬ destR <+: srcR)
    (h : k <+: destR ∨ destR <+: k) : ¬ srcR <+: k := by
  intro hs
  cases h with
  | inl h => exact hd1 (hs.trans h)
  | inr h =>
    cases preTotal hs h with
    | inl h2 => exact hd1 h2
    | inr h2 => exact hd2 h2

/-! Frame and invariance lemmas for the directory-creation worker. -/

theorem os_lexists_insert_mono {fs : FS} {q k : Path} {v : Entry}
    (h : os_lexists fs k = true) : os_lexists (fsInsert fs q v) k = true := by
  rw [os_lexists, fsLookup_insert]
  by_cases hk : k = q
  · rw [if_pos hk]; rfl
  · rw [if_neg hk]; exact h

theorem all_eraseKey {P : Path × Entry → Bool} {k : Path} :
    ∀ {l : List (Path × Entry)}, l.all P = true → (eraseKey k l).all P = true := by
  intro l
  induction l with
  | nil => intro h; exact h
  | cons kv r ih =>
    intro h
    rw [List.all_cons] at h
    have h1 := (Bool.and_eq_true_iff.mp h).1
    have h2 := (Bool.and_eq_true_iff.mp h).2
    rw [eraseKey]
    by_cases hk : kv.1 = k
    · rw [if_pos hk]; exact ih h2
    · rw [if_neg hk, List.all_cons, h1, ih h2]; rfl

theorem noLinks_insert {fs : FS} {q : Path} {v : Entry}
    (h : fs.noLinks = true) (hv : v.isLink = false) : (fsInsert fs q v).noLinks = true := by
  rw [FS.noLinks, fsInsert, List.all_cons]
  have : (!v.isLink) = true := by rw [hv]; rfl
  rw [this, all_eraseKey h]
  rfl

theorem os_path_exists_insert_mono {fs : FS} {q k : Path} {v : Entry}
    (hn : fs.noLinks = true) (hv : v.isLink = false)
    (h : os_lexists fs k = true) : os_path_exists (fsInsert fs q v) k = true := by
  rw [os_path_exists_noLinks (noLinks_insert hn hv)]
  exact os_lexists_insert_mono h

theorem mkdirsGo_pres {eo : Bool} :
    ∀ (qs : List Path) (fs fs2 : FS), mkdirsGo eo fs qs = .ok fs2 →
      ∀ k, os_lexists fs k = true → fsLookup fs2 k = fsLookup fs k
  | [], fs, fs2, h, k, hk => by
    rw [mkdirsGo] at h
    cases h
    rfl
  | [q], fs, fs2, h, k, hk => by
    rw [mkdirsGo] at h
    split at h
    · split at h
      · cases h; rfl
      · cases h
    · split at h
      · cases h
      · rename_i hlex
        cases h
        have hne : k ≠ q := by
          intro hkq
          subst hkq
          exact hlex hk
        rw [fsLookup_insert, if_neg hne]
  | q :: q2 :: rest, fs, fs2, h, k, hk => by
    rw [mkdirsGo] at h
    split at h
    · exact mkdirsGo_pres (q2 :: rest) fs fs2 h k hk
    · split at h
      · cases h
      · rename_i hlex
        have hne : k ≠ q := by
          intro hkq
          subst hkq
          exact hlex hk
        have hrec := mkdirsGo_pres (q2 :: rest) _ fs2 h k (os_lexists_insert_mono hk)
        rw [hrec, fsLookup_insert, if_neg hne]

theorem mkdirsGo_lexists {eo : Bool} {qs : List Path} {fs fs2 : FS}
    (h : mkdirsGo eo fs qs = .ok fs2) {k : Path} (hk : os_lexists fs k = true) :
    os_lexists fs2 k = true := by
  rw [os_lexists, mkdirsGo_pres qs fs fs2 h k hk]
  exact hk

theorem mkdirsGo_noLinks {eo : Bool} :
    ∀ (qs : List Path) (fs fs2 : FS), mkdirsGo eo fs qs = .ok fs2 →
      fs.noLinks = true → fs2.noLinks = true
  | [], fs, fs2, h, hn => by
    rw [mkdirsGo] at h
    cases h
    exact hn
  | [q], fs, fs2, h, hn => by
    rw [mkdirsGo] at h
    split at h
    · split at h
      · cases h; exact hn
      · cases h
    · split at h
      · cases h
      · cases h
        exact noLinks_insert hn rfl
  | q :: q2 :: rest, fs, fs2, h, hn => by
    rw [mkdirsGo] at h
    split at h
    · exact mkdirsGo_noLinks (q2 :: rest) fs fs2 h hn
    · split at h
      · cases h
      · exact mkdirsGo_noLinks (q2 :: rest) _ fs2 h (noLinks_insert hn rfl)

theorem lexists_of_isdir {fs : FS} {q : Path} (hn : fs.noLinks = true)
    (hdir : os_isdir fs q = true) : os_lexists fs q = true := by
  rw [os_isdir_noLinks hn] at hdir
  rw [os_lexists]
  revert hdir
  cases hl : fsLookup fs q with
  | none => intro hdir; cases hdir
  | some e => intro _; rfl

theorem mkdirsGo_mem_lexists {eo : Bool} :
    ∀ (qs : List Path) (fs fs2 : FS), mkdirsGo eo fs qs = .ok fs2 →
      fs.noLinks = true → ∀ q ∈ qs, os_lexists fs2 q = true
  | [], fs, fs2, h, hn, q, hq => by cases hq
  | [q0], fs, fs2, h, hn, q, hq => by
    have hq0 : q = q0 := by
      cases hq with
      | head => rfl
      | tail _ hmem => cases hmem
    subst hq0
    rw [mkdirsGo] at h
    split at h
    · rename_i hdir
      split at h
      · cases h
        exact lexists_of_isdir hn hdir
      · cases h
    · split at h
      · cases h
      · cases h
        rw [os_lexists, fsLookup_insert, if_pos rfl]
        rfl
  | q0 :: q2 :: rest, fs, fs2, h, hn, q, hq => by
    rw [mkdirsGo] at h
    cases hq with
    | head =>
      split at h
      · rename_i hdir
        exact mkdirsGo_lexists h (lexists_of_isdir hn hdir)
      · split at h
        · cases h
        · have hlex : os_lexists (fsInsert fs q0 .dir) q0 = true := by
            rw [os_lexists, fsLookup_insert, if_pos rfl]
            rfl
          exact mkdirsGo_lexists h hlex
    | tail _ hmem =>
      split at h
      · exact mkdirsGo_mem_lexists (q2 :: rest) fs fs2 h hn q hmem
      · split at h
        · cases h
        · exact mkdirsGo_mem_lexists (q2 :: rest) _ fs2 h (noLinks_insert hn rfl) q hmem

/-! Lemmas about the per-file copy under a link-free filesystem. -/

theorem lookup_of_statFile {fs : FS} {p : Path} {mt : ℚ} {md : Nat}
    (hn : fs.noLinks = true) (h : statFile fs p = some (mt, md)) :
    fsLookup fs p = some (.file mt md) := by
  rw [statFile_noLinks hn] at h
  revert h
  cases hl : fsLookup fs p with
  | none => intro h; cases h
  | some e =>
    cases e with
    | file mt2 md2 => intro h; cases h; rfl
    | dir => intro h; cases h
    | symlink t => intro h; cases h

theorem maybe_copy_cases {fs fs2 : FS} {s t : Path} {b : Bool}
    (h : _maybe_copy fs s t = .ok (fs2, b)) :
    (∃ (mt : ℚ) (md : Nat), statFile fs s = some (mt, md)
      ∧ fs2 = fsInsert fs t (.file mt md) ∧ b = true)
    ∨ (_should_copy fs s t = .ok false ∧ fs2 = fs ∧ b = false) := by
  rw [_maybe_copy] at h
  cases hsc : _should_copy fs s t with
  | error e => rw [hsc] at h; cases h
  | ok bb =>
    rw [hsc] at h
    cases bb with
    | true =>
      cases hcp : copy2 fs s t with
      | error e => rw [hcp] at h; cases h
      | ok fsc =>
        rw [hcp] at h
        cases h
        rw [copy2] at hcp
        cases hst : statFile fs s with
        | none => rw [hst] at hcp; cases hcp
        | some st =>
          rw [hst] at hcp
          cases hcp
          exact Or.inl ⟨st.1, st.2, rfl, rfl, rfl⟩
    | false =>
      cases h
      exact Or.inr ⟨rfl, rfl, rfl⟩

theorem should_copy_after_copy {fs : FS} {s t : Path} {mt : ℚ} {md : Nat}
    (hn : fs.noLinks = true) (hne : s ≠ t)
    (hst : statFile fs s = some (mt, md)) :
    _should_copy (fsInsert fs t (.file mt md)) s t = .ok false := by
  have hn2 : (fsInsert fs t (.file mt md)).noLinks = true := noLinks_insert hn rfl
  have hlt : fsLookup (fsInsert fs t (.file mt md)) t = some (.file mt md) := by
    rw [fsLookup_insert, if_pos rfl]
  have hls : fsLookup (fsInsert fs t (.file mt md)) s = fsLookup fs s := by
    rw [fsLookup_insert, if_neg hne]
  have hex : os_path_exists (fsInsert fs t (.file mt md)) t = true := by
    rw [os_path_exists_noLinks hn2, os_lexists, hlt]
    rfl
  have hs2 : statFile (fsInsert fs t (.file mt md)) s = some (mt, md) := by
    rw [statFile_noLinks hn2, hls, lookup_of_statFile hn hst]
  have ht2 : statFile (fsInsert fs t (.file mt md)) t = some (mt, md) := by
    rw [statFile_noLinks hn2, hlt]
  rw [_should_copy, if_neg (by simp [hex])]
  simp only [os_stat, hs2, ht2]
  rw [if_neg]
  rw [sub_self]
  norm_num

theorem should_copy_congr {fs fs2 : FS} {s t : Path}
    (hn : fs.noLinks = true) (hn2 : fs2.noLinks = true)
    (hs : fsLookup fs2 s = fsLookup fs s) (ht : fsLookup fs2 t = fsLookup fs t) :
    _should_copy fs2 s t = _should_copy fs s t := by
  rw [_should_copy, _should_copy, os_path_exists_noLinks hn,
    os_path_exists_noLinks hn2, os_lexists, os_lexists, ht,
    os_stat, os_stat, os_stat, os_stat, statFile_noLinks hn,
    statFile_noLinks hn2, statFile_noLinks hn, statFile_noLinks hn2, hs, ht]

theorem should_copy_false_lexists {fs : FS} {s t : Path}
    (hn : fs.noLinks = true) (h : _should_copy fs s t = .ok false) :
    os_lexists fs s = true ∧ os_lexists fs t = true := by
  rw [_should_copy] at h
  split at h
  · cases h
  · rename_i hex
    have hext : os_path_exists fs t = true := by
      revert hex
      cases os_path_exists fs t
      · intro hex; exact absurd rfl hex
      · intro _; rfl
    refine ⟨?_, by rw [← os_path_exists_noLinks hn]; exact hext⟩
    cases hst : os_stat fs s with
    | error e => rw [hst] at h; cases h
    | ok st =>
      rw [os_stat] at hst
      cases hsf : statFile fs s with
      | none => rw [hsf] at hst; cases hst
      | some st2 =>
        rw [os_lexists, lookup_of_statFile hn (by rw [hsf])]
        rfl

/-! Frame and invariance lemmas for the per-directory file loop. -/

theorem copyFiles_props (sdir ddir : Path) :
    ∀ (ns : List String) (fs fs2 : FS) (lg : List Path),
      copyFiles sdir ddir fs ns = (fs2, lg, none) → fs.noLinks = true →
      fs2.noLinks = true
      ∧ (∀ k, os_lexists fs k = true → os_lexists fs2 k = true)
      ∧ (∀ k, (∀ n ∈ ns, k ≠ ddir ++ [n]) → fsLookup fs2 k = fsLookup fs k)
  | [], fs, fs2, lg, h, hn => by
    rw [copyFiles] at h
    cases h
    exact ⟨hn, fun k hk => hk, fun k _ => rfl⟩
  | n :: rest, fs, fs2, lg, h, hn => by
    rw [copyFiles] at h
    cases hmc : _maybe_copy fs (sdir ++ [n]) (ddir ++ [n]) with
    | error e => rw [hmc] at h; cases h
    | ok fcb =>
      rw [hmc] at h
      dsimp only at h
      rcases hcf : copyFiles sdir ddir fcb.1 rest with ⟨fsr, lgr, er⟩
      rw [hcf] at h
      dsimp only at h
      cases h
      have hstep : fcb.1.noLinks = true
          ∧ (∀ k, os_lexists fs k = true → os_lexists fcb.1 k = true)
          ∧ (∀ k, k ≠ ddir ++ [n] → fsLookup fcb.1 k = fsLookup fs k) := by
        rcases maybe_copy_cases (by rw [hmc] : _maybe_copy fs (sdir ++ [n])
            (ddir ++ [n]) = .ok (fcb.1, fcb.2)) with
          ⟨mt, md, hst, hfs1, _⟩ | ⟨hsc, hfs1, _⟩
        · rw [hfs1]
          exact ⟨noLinks_insert hn rfl, fun k hk => os_lexists_insert_mono hk,
            fun k hk => by rw [fsLookup_insert, if_neg hk]⟩
        · rw [hfs1]
          exact ⟨hn, fun k hk => hk, fun k _ => rfl⟩
      have hrest := copyFiles_props sdir ddir rest fcb.1 fs2 lgr hcf hstep.1
      refine ⟨hrest.1, fun k hk => hrest.2.1 k (hstep.2.1 k hk), fun k hk => ?_⟩
      rw [hrest.2.2 k (fun n2 hn2 => hk n2 (List.mem_cons_of_mem n hn2)),
        hstep.2.2 k (hk n (List.mem_cons_self n rest))]

theorem append_singleton_inj {d : Path} {x y : String} (h : d ++ [x] = d ++ [y]) :
    x = y := by
  have := List.append_cancel_left h
  exact (List.cons.inj this).1

theorem copyFiles_good (sdir ddir : Path) :
    ∀ (ns : List String) (fs fs2 : FS) (lg : List Path),
      copyFiles sdir ddir fs ns = (fs2, lg, none) → fs.noLinks = true →
      ns.Nodup → (∀ x y : String, sdir ++ [x] ≠ ddir ++ [y]) →
      ∀ n ∈ ns, _should_copy fs2 (sdir ++ [n]) (ddir ++ [n]) = .ok false
  | [], fs, fs2, lg, h, hn, hnd, hsd, n, hmem => by cases hmem
  | n0 :: rest, fs, fs2, lg, h, hn, hnd, hsd, n, hmem => by
    rw [copyFiles] at h
    cases hmc : _maybe_copy fs (sdir ++ [n0]) (ddir ++ [n0]) with
    | error e => rw [hmc] at h; cases h
    | ok fcb =>
      rw [hmc] at h
      dsimp only at h
      rcases hcf : copyFiles sdir ddir fcb.1 rest with ⟨fsr, lgr, er⟩
      rw [hcf] at h
      dsimp only at h
      cases h
      have hn1 : fcb.1.noLinks = true := by
        rcases maybe_copy_cases (by rw [hmc] : _maybe_copy fs (sdir ++ [n0])
            (ddir ++ [n0]) = .ok (fcb.1, fcb.2)) with
          ⟨mt, md, hst, hfs1, _⟩ | ⟨hsc, hfs1, _⟩
        · rw [hfs1]; exact noLinks_insert hn rfl
        · rw [hfs1]; exact hn
      cases hmem with
      | head =>
        have hgood1 : _should_copy fcb.1 (sdir ++ [n0]) (ddir ++ [n0]) = .ok false := by
          rcases maybe_copy_cases (by rw [hmc] : _maybe_copy fs (sdir ++ [n0])
              (ddir ++ [n0]) = .ok (fcb.1, fcb.2)) with
            ⟨mt, md, hst, hfs1, _⟩ | ⟨hsc, hfs1, _⟩
          · rw [hfs1]
            exact should_copy_after_copy hn (hsd n0 n0) hst
          · rw [hfs1]
            exact hsc
        have hprops := copyFiles_props sdir ddir rest fcb.1 fs2 lgr hcf hn1
        have hlx := should_copy_false_lexists hn1 hgood1
        have hs : fsLookup fs2 (sdir ++ [n0]) = fsLookup fcb.1 (sdir ++ [n0]) :=
          hprops.2.2 _ (fun n2 _ => hsd n0 n2)
        have ht : fsLookup fs2 (ddir ++ [n0]) = fsLookup fcb.1 (ddir ++ [n0]) := by
          refine hprops.2.2 _ (fun n2 hn2 hne => ?_)
          have := append_singleton_inj hne
          subst this
          exact (List.nodup_cons.mp hnd).1 hn2
        rw [should_copy_congr hn1 hprops.1 hs ht]
        exact hgood1
      | tail _ hmem2 =>
        exact copyFiles_good sdir ddir rest fcb.1 fs2 lgr hcf hn1
          (List.nodup_cons.mp hnd).2 hsd n hmem2

theorem copyFiles_noop (sdir ddir : Path) :
    ∀ (ns : List String) (fs : FS),
      (∀ n ∈ ns, _should_copy fs (sdir ++ [n]) (ddir ++ [n]) = .ok false) →
      copyFiles sdir ddir fs ns = (fs, [], none)
  | [], fs, hgood => rfl
  | n0 :: rest, fs, hgood => by
    rw [copyFiles, _maybe_copy, hgood n0 (List.mem_cons_self n0 rest)]
    dsimp only
    rw [copyFiles_noop sdir ddir rest fs
      (fun n hn => hgood n (List.mem_cons_of_mem n0 hn))]
    rfl

/-! Frame and idempotence lemmas for one directory step of the walk. -/

/-- The destination-relative paths of all files in a walk enumeration. -/
def destRelsOf : List (Path × List String) → List Path
  | [] => []
  | dn :: rest => dn.2.map (fun n => dn.1 ++ [n]) ++ destRelsOf rest

theorem stepDir_props (srcR destR : Path) (dn : Path × List String) (fs fs2 : FS)
    (lg : List Path) (h : stepDir srcR destR fs dn = (fs2, lg, none))
    (hn : fs.noLinks = true) (hdd : destR ++ dn.1 ≠ [])
    (hnD : dn.2.Nodup)
    (hsd : ∀ x y : String, (srcR ++ dn.1) ++ [x] ≠ (destR ++ dn.1) ++ [y]) :
    fs2.noLinks = true
    ∧ (∀ k, os_lexists fs k = true → os_lexists fs2 k = true)
    ∧ (∀ k, os_lexists fs k = true → (∀ n ∈ dn.2, k ≠ (destR ++ dn.1) ++ [n]) →
        fsLookup fs2 k = fsLookup fs k)
    ∧ os_lexists fs2 (destR ++ dn.1) = true
    ∧ (∀ n ∈ dn.2,
        _should_copy fs2 ((srcR ++ dn.1) ++ [n]) ((destR ++ dn.1) ++ [n]) = .ok false) := by
  rw [stepDir] at h
  by_cases hex : os_path_exists fs (destR ++ dn.1) = true
  · rw [if_pos hex] at h
    dsimp only at h
    have hprops := copyFiles_props (srcR ++ dn.1) (destR ++ dn.1) dn.2 fs fs2 lg h hn
    have hlex : os_lexists fs (destR ++ dn.1) = true := by
      rw [← os_path_exists_noLinks hn]
      exact hex
    exact ⟨hprops.1, hprops.2.1, fun k hk hk2 => hprops.2.2 k hk2,
      hprops.2.1 _ hlex,
      copyFiles_good (srcR ++ dn.1) (destR ++ dn.1) dn.2 fs fs2 lg h hn hnD hsd⟩
  · rw [if_neg hex] at h
    cases hmk : makedirs fs (destR ++ dn.1) false with
    | error e => rw [hmk] at h; cases h
    | ok fs1 =>
      rw [hmk] at h
      dsimp only at h
      rw [makedirs] at hmk
      have hn1 : fs1.noLinks = true := mkdirsGo_noLinks _ fs fs1 hmk hn
      have hprops := copyFiles_props (srcR ++ dn.1) (destR ++ dn.1) dn.2 fs1 fs2 lg h hn1
      refine ⟨hprops.1, ?_, ?_, ?_, ?_⟩
      · intro k hk
        exact hprops.2.1 k (mkdirsGo_lexists hmk hk)
      · intro k hk hk2
        rw [hprops.2.2 k hk2, mkdirsGo_pres _ fs fs1 hmk k hk]
      · exact hprops.2.1 _
          (mkdirsGo_mem_lexists _ fs fs1 hmk hn _ (mem_initsOf_self hdd))
      · exact copyFiles_good (srcR ++ dn.1) (destR ++ dn.1) dn.2 fs1 fs2 lg h hn1 hnD hsd

theorem stepDir_noop (srcR destR : Path) (dn : Path × List String) (fs : FS)
    (hn : fs.noLinks = true) (hlex : os_lexists fs (destR ++ dn.1) = true)
    (hgood : ∀ n ∈ dn.2,
      _should_copy fs ((srcR ++ dn.1) ++ [n]) ((destR ++ dn.1) ++ [n]) = .ok false) :
    stepDir srcR destR fs dn = (fs, [], none) := by
  rw [stepDir, if_pos (by rw [os_path_exists_noLinks hn]; exact hlex)]
  dsimp only
  exact copyFiles_noop (srcR ++ dn.1) (destR ++ dn.1) dn.2 fs hgood

theorem src_ne_dest {srcR destR : Path} (hd1 : ¬ srcR <+: destR)
    (hd2 : ¬ destR <+: srcR) (a b : Path) : srcR ++ a ≠ destR ++ b := by
  intro h
  have h1 : srcR <+: destR ++ b := ⟨a, h⟩
  cases preTotal h1 ⟨b, rfl⟩ with
  | inl h2 => exact hd1 h2
  | inr h2 => exact hd2 h2

/-- Master lemma for claim C6: a successful error-free run of the walk
loop leaves a state from which re-running the same enumeration is the
identity with no copies; along the way the run preserves link-freedom,
never deletes entries, and touches no existing entry other than the
enumerated destination files. -/
theorem stageDirs_idem (srcR destR : Path)
    (hd1 : ¬ srcR <+: destR) (hd2 : ¬ destR <+: srcR) (hdr : destR ≠ []) :
    ∀ (es : List (Path × List String)) (fs fs2 : FS) (lg : List Path),
      stageDirs srcR destR fs es = (fs2, lg, none) → fs.noLinks = true →
      (destRelsOf es).Nodup →
      fs2.noLinks = true
      ∧ (∀ k, os_lexists fs k = true → os_lexists fs2 k = true)
      ∧ (∀ k, os_lexists fs k = true → (∀ r ∈ destRelsOf es, k ≠ destR ++ r) →
          fsLookup fs2 k = fsLookup fs k)
      ∧ stageDirs srcR destR fs2 es = (fs2, [], none)
  | [], fs, fs2, lg, h, hn, hnd => by
    rw [stageDirs] at h
    cases h
    exact ⟨hn, fun k hk => hk, fun k _ _ => rfl, rfl⟩
  | dn :: rest, fs, fs2, lg, h, hn, hnd => by
    rw [stageDirs] at h
    rcases hstep : stepDir srcR destR fs dn with ⟨fsA, lgA, erA⟩
    rw [hstep] at h
    dsimp only at h
    cases erA with
    | some e => dsimp only at h; cases h
    | none =>
      dsimp only at h
      rcases hrec : stageDirs srcR destR fsA rest with ⟨fsB, lgB, erB⟩
      rw [hrec] at h
      dsimp only at h
      cases h
      rw [destRelsOf] at hnd
      have hndHead : (dn.2.map (fun n => dn.1 ++ [n])).Nodup := hnd.of_append_left
      have hndRest : (destRelsOf rest).Nodup := hnd.of_append_right
      have hdisj := (List.nodup_append.mp hnd).2.2
      have hnD : dn.2.Nodup := hndHead.of_map
      have hdd : destR ++ dn.1 ≠ [] := fun hh => hdr (List.append_eq_nil.mp hh).1
      have hsd : ∀ x y : String, (srcR ++ dn.1) ++ [x] ≠ (destR ++ dn.1) ++ [y] := by
        intro x y hxy
        rw [List.append_assoc, List.append_assoc] at hxy
        exact src_ne_dest hd1 hd2 _ _ hxy
      have hA := stepDir_props srcR destR dn fs fsA lgA hstep hn hdd hnD hsd
      have hIH := stageDirs_idem srcR destR hd1 hd2 hdr rest fsA fs2 lgB hrec hA.1 hndRest
      have hgoodB : ∀ n ∈ dn.2,
          _should_copy fs2 ((srcR ++ dn.1) ++ [n]) ((destR ++ dn.1) ++ [n]) =
            .ok false := by
        intro n hnn
        have hgA := hA.2.2.2.2 n hnn
        have hlx := should_copy_false_lexists hA.1 hgA
        have hs : fsLookup fs2 ((srcR ++ dn.1) ++ [n]) =
            fsLookup fsA ((srcR ++ dn.1) ++ [n]) := by
          refine hIH.2.2.1 _ hlx.1 ?_
          intro r _ hkr
          rw [List.append_assoc] at hkr
          exact src_ne_dest hd1 hd2 _ _ hkr
        have ht : fsLookup fs2 ((destR ++ dn.1) ++ [n]) =
            fsLookup fsA ((destR ++ dn.1) ++ [n]) := by
          refine hIH.2.2.1 _ hlx.2 ?_
          intro r hr hkr
          rw [List.append_assoc] at hkr
          have hreq : dn.1 ++ [n] = r := List.append_cancel_left hkr
          exact hdisj (List.mem_map.mpr ⟨n, hnn, rfl⟩) (hreq ▸ hr)
        rw [should_copy_congr hA.1 hIH.1 hs ht]
        exact hgA
      refine ⟨hIH.1, ?_, ?_, ?_⟩
      · intro k hk
        exact hIH.2.1 k (hA.2.1 k hk)
      · intro k hk hk2
        have hkHead : ∀ n ∈ dn.2, k ≠ (destR ++ dn.1) ++ [n] := by
          intro n hnn hkn
          refine hk2 (dn.1 ++ [n]) ?_ ?_
          · rw [destRelsOf]
            exact List.mem_append.mpr (Or.inl (List.mem_map.mpr ⟨n, hnn, rfl⟩))
          · rw [hkn, List.append_assoc]
        have hkRest : ∀ r ∈ destRelsOf rest, k ≠ destR ++ r := by
          intro r hr
          refine hk2 r ?_
          rw [destRelsOf]
          exact List.mem_append.mpr (Or.inr hr)
        rw [hIH.2.2.1 k (hA.2.1 k hk) hkRest, hA.2.2.1 k hk hkHead]
      · rw [stageDirs, stepDir_noop srcR destR dn fs2 hIH.1
          (hIH.2.1 _ hA.2.2.2.1) hgoodB]
        dsimp only
        rw [hIH.2.2.2]
        rfl

/-! The walk enumeration depends only on the source subtree, which the
copy run never touches. -/

/-- The sub-association-list of entries lying in the subtree at `root`. -/
def srcView (root : Path) (fs : FS) : List (Path × Entry) :=
  fs.entries.filter (fun kv => root.isPrefixOf kv.1)

theorem filter_eraseKey_out {root k : Path} (hk : root.isPrefixOf k = false) :
    ∀ l : List (Path × Entry),
      (eraseKey k l).filter (fun kv => root.isPrefixOf kv.1) =
        l.filter (fun kv => root.isPrefixOf kv.1)
  | [] => rfl
  | kv :: r => by
    by_cases hkv : kv.1 = k
    · rw [eraseKey, if_pos hkv, List.filter_cons]
      have : root.isPrefixOf kv.1 = false := by rw [hkv]; exact hk
      rw [this]
      exact filter_eraseKey_out hk r
    · rw [eraseKey, if_neg hkv, List.filter_cons, List.filter_cons,
        filter_eraseKey_out hk r]

theorem srcView_insert_out {root k : Path} {fs : FS} {v : Entry}
    (hk : root.isPrefixOf k = false) :
    srcView root (fsInsert fs k v) = srcView root fs := by
  rw [srcView, srcView, fsInsert, List.filter_cons]
  dsimp only
  rw [hk]
  exact filter_eraseKey_out hk fs.entries

theorem mkdirsGo_view {root : Path} {eo : Bool} :
    ∀ (qs : List Path) (fs fs2 : FS), mkdirsGo eo fs qs = .ok fs2 →
      (∀ q ∈ qs, root.isPrefixOf q = false) →
      srcView root fs2 = srcView root fs
  | [], fs, fs2, h, hq => by
    rw [mkdirsGo] at h
    cases h
    rfl
  | [q], fs, fs2, h, hq => by
    rw [mkdirsGo] at h
    split at h
    · split at h
      · cases h; rfl
      · cases h
    · split at h
      · cases h
      · cases h
        exact srcView_insert_out (hq q (List.mem_cons_self q []))
  | q :: q2 :: rest, fs, fs2, h, hq => by
    rw [mkdirsGo] at h
    split at h
    · exact mkdirsGo_view (q2 :: rest) fs fs2 h
        (fun q3 hq3 => hq q3 (List.mem_cons_of_mem q hq3))
    · split at h
      · cases h
      · rw [mkdirsGo_view (q2 :: rest) _ fs2 h
          (fun q3 hq3 => hq q3 (List.mem_cons_of_mem q hq3))]
        exact srcView_insert_out (hq q (List.mem_cons_self q _))

theorem copyFiles_view {root : Path} (sdir ddir : Path) :
    ∀ (ns : List String) (fs fs2 : FS) (lg : List Path),
      copyFiles sdir ddir fs ns = (fs2, lg, none) →
      (∀ n ∈ ns, root.isPrefixOf (ddir ++ [n]) = false) →
      srcView root fs2 = srcView root fs
  | [], fs, fs2, lg, h, hq => by
    rw [copyFiles] at h
    cases h
    rfl
  | n :: rest, fs, fs2, lg, h, hq => by
    rw [copyFiles] at h
    cases hmc : _maybe_copy fs (sdir ++ [n]) (ddir ++ [n]) with
    | error e => rw [hmc] at h; cases h
    | ok fcb =>
      rw [hmc] at h
      dsimp only at h
      rcases hcf : copyFiles sdir ddir fcb.1 rest with ⟨fsr, lgr, er⟩
      rw [hcf] at h
      dsimp only at h
      cases h
      rw [copyFiles_view sdir ddir rest fcb.1 fs2 lgr hcf
        (fun n2 hn2 => hq n2 (List.mem_cons_of_mem n hn2))]
      rcases maybe_copy_cases (by rw [hmc] : _maybe_copy fs (sdir ++ [n])
          (ddir ++ [n]) = .ok (fcb.1, fcb.2)) with
        ⟨mt, md, hst, hfs1, _⟩ | ⟨hsc, hfs1, _⟩
      · rw [hfs1]
        exact srcView_insert_out (hq n (List.mem_cons_self n rest))
      · rw [hfs1]

theorem stepDir_view {root : Path} (srcR destR : Path) (dn : Path × List String)
    (fs fs2 : FS) (lg : List Path) (h : stepDir srcR destR fs dn = (fs2, lg, none))
    (hq1 : ∀ q ∈ initsOf (destR ++ dn.1), root.isPrefixOf q = false)
    (hq2 : ∀ n ∈ dn.2, root.isPrefixOf ((destR ++ dn.1) ++ [n]) = false) :
    srcView root fs2 = srcView root fs := by
  rw [stepDir] at h
  by_cases hex : os_path_exists fs (destR ++ dn.1) = true
  · rw [if_pos hex] at h
    dsimp only at h
    exact copyFiles_view (srcR ++ dn.1) (destR ++ dn.1) dn.2 fs fs2 lg h hq2
  · rw [if_neg hex] at h
    cases hmk : makedirs fs (destR ++ dn.1) false with
    | error e => rw [hmk] at h; cases h
    | ok fs1 =>
      rw [hmk] at h
      dsimp only at h
      rw [makedirs] at hmk
      rw [copyFiles_view (srcR ++ dn.1) (destR ++ dn.1) dn.2 fs1 fs2 lg h hq2]
      exact mkdirsGo_view _ fs fs1 hmk hq1

theorem stageDirs_view {root : Path} (srcR destR : Path) :
    ∀ (es : List (Path × List String)) (fs fs2 : FS) (lg : List Path),
      stageDirs srcR destR fs es = (fs2, lg, none) →
      (∀ dn ∈ es, (∀ q ∈ initsOf (destR ++ dn.1), root.isPrefixOf q = false)
        ∧ (∀ n ∈ dn.2, root.isPrefixOf ((destR ++ dn.1) ++ [n]) = false)) →
      srcView root fs2 = srcView root fs
  | [], fs, fs2, lg, h, hq => by
    rw [stageDirs] at h
    cases h
    rfl
  | dn :: rest, fs, fs2, lg, h, hq => by
    rw [stageDirs] at h
    rcases hstep : stepDir srcR destR fs dn with ⟨fsA, lgA, erA⟩
    rw [hstep] at h
    cases erA with
    | some e => dsimp only at h; cases h
    | none =>
      dsimp only at h
      rcases hrec : stageDirs srcR destR fsA rest with ⟨fsB, lgB, erB⟩
      rw [hrec] at h
      dsimp only at h
      cases h
      rw [stageDirs_view srcR destR rest fsA fs2 lgB hrec
        (fun dn2 hdn2 => hq dn2 (List.mem_cons_of_mem dn hdn2))]
      exact stepDir_view srcR destR dn fs fsA lgA hstep
        (hq dn (List.mem_cons_self dn rest)).1 (hq dn (List.mem_cons_self dn rest)).2

theorem filterMap_filter_eq {β : Type} (g : (Path × Entry) → Option β)
    (P : (Path × Entry) → Bool) (hg : ∀ kv, g kv ≠ none → P kv = true) :
    ∀ l : List (Path × Entry), l.filterMap g = (l.filter P).filterMap g
  | [] => rfl
  | kv :: r => by
    rw [List.filter_cons]
    by_cases hkv : P kv = true
    · rw [hkv, if_pos rfl, List.filterMap_cons, List.filterMap_cons,
        filterMap_filter_eq g P hg r]
    · have hP : P kv = false := by
        revert hkv
        cases P kv
        · intro _; rfl
        · intro hkv; exact absurd rfl hkv
      have hgkv : g kv = none := by
        cases hgkv2 : g kv with
        | none => rfl
        | some b =>
          have := hg kv (by rw [hgkv2]; exact fun hh => by cases hh)
          rw [hP] at this
          cases this
      rw [hP, if_neg Bool.false_ne_true, List.filterMap_cons, hgkv,
        filterMap_filter_eq g P hg r]

theorem relUnder_ne_none {root k : Path} (h : relUnder root k ≠ none) :
    root.isPrefixOf k = true := by
  rw [relUnder] at h
  by_cases hp : root <+: k
  · rw [ List.isPrefixOf_iff_prefix]
    exact hp
  · rw [if_neg hp] at h
    exact absurd rfl h

theorem walkRelDirs_view {root : Path} {fs fs2 : FS}
    (h : srcView root fs2 = srcView root fs) :
    walkRelDirs fs2 root = walkRelDirs fs root := by
  have hg : ∀ kv : Path × Entry,
      (match kv.2 with | Entry.dir => relUnder root kv.1 | _ => none) ≠ none →
      root.isPrefixOf kv.1 = true := by
    intro kv
    obtain ⟨k1, e1⟩ := kv
    cases e1 with
    | dir => exact fun hkv => relUnder_ne_none hkv
    | file mt md => exact fun hkv => absurd rfl hkv
    | symlink t2 => exact fun hkv => absurd rfl hkv
  rw [walkRelDirs, walkRelDirs, filterMap_filter_eq _ _ hg fs2.entries,
    filterMap_filter_eq _ _ hg fs.entries]
  rw [srcView, srcView] at h
  rw [h]

theorem walkFilesIn_view {root : Path} {fs fs2 : FS} (d : Path)
    (h : srcView root fs2 = srcView root fs) :
    walkFilesIn fs2 root d = walkFilesIn fs root d := by
  have hg : ∀ kv : Path × Entry,
      (match kv.2 with
        | Entry.file _ _ =>
          match relUnder root kv.1 with
          | some r => if r ≠ [] ∧ r.dropLast = d then r.getLast? else none
          | none => none
        | _ => none) ≠ none →
      root.isPrefixOf kv.1 = true := by
    intro kv
    obtain ⟨k1, e1⟩ := kv
    cases e1 with
    | file mt md =>
      intro hkv
      refine relUnder_ne_none ?_
      intro hru
      rw [hru] at hkv
      exact absurd rfl hkv
    | dir => exact fun hkv => absurd rfl hkv
    | symlink t2 => exact fun hkv => absurd rfl hkv
  rw [walkFilesIn, walkFilesIn, filterMap_filter_eq _ _ hg fs2.entries,
    filterMap_filter_eq _ _ hg fs.entries]
  rw [srcView, srcView] at h
  rw [h]

theorem walkEntries_view {root : Path} {fs fs2 : FS}
    (h : srcView root fs2 = srcView root fs) :
    walkEntries fs2 root = walkEntries fs root := by
  rw [walkEntries, walkEntries, walkRelDirs_view h]
  exact List.map_congr_left (fun d _ => by rw [walkFilesIn_view d h])

theorem isPrefixOf_false_of_not {a b : Path} (h : ¬ a <+: b) :
    a.isPrefixOf b = false := by
  cases hb : a.isPrefixOf b
  · rfl
  · exact absurd ( List.isPrefixOf_iff_prefix.mp hb) h

theorem stageDirs_view_src (srcR destR : Path)
    (hd1 : ¬ srcR <+: destR) (hd2 : ¬ destR <+: srcR)
    (es : List (Path × List String)) (fs fs2 : FS) (lg : List Path)
    (h : stageDirs srcR destR fs es = (fs2, lg, none)) :
    srcView srcR fs2 = srcView srcR fs := by
  refine stageDirs_view srcR destR es fs fs2 lg h ?_
  intro dn _
  constructor
  · intro q hq
    exact isPrefixOf_false_of_not
      (not_src_of_destR_comparable hd1 hd2 (preOfAppend (mem_initsOf_pre hq)))
  · intro n _
    refine isPrefixOf_false_of_not (not_src_of_destR_comparable hd1 hd2 (Or.inr ?_))
    exact ⟨dn.1 ++ [n], by rw [List.append_assoc]⟩

/-- Under a successful, mutation-free prelude (resolved root, existing
root and parent directories, no overwrite) and a directory source,
copy-mode staging is exactly the walk loop, and on an error-free walk the
call returns the walk's final state, its copy log and `full_dest`. -/
theorem develop_copy_eq (env : Env) (fs : FS) (p labext dst full_dest : Path)
    (u sp : Bool) (lab : Option Path)
    (hres : _get_labextension_dir env u sp none lab = .ok labext)
    (hens : ensure_dir_exists fs labext = .ok fs)
    (hdst : dst ≠ [])
    (hfd : full_dest = normpath (labext ++ dst))
    (hmk : makedirs fs (dirname full_dest) true = .ok fs)
    (hdir : os_isdir fs p = true) :
    ∀ (fsX : FS) (lgX : List Path),
      stageDirs (abspath p) full_dest fs (walkEntries fs (abspath p)) = (fsX, lgX, none) →
      develop_labextension env fs (.str p) false false u lab (some dst) sp =
        ⟨fsX, lgX, .ok full_dest⟩ := by
  intro fsX lgX hstage
  have hemp : dst.isEmpty = false := by
    cases dst with
    | nil => exact absurd rfl hdst
    | cons a l => rfl
  rw [develop_labextension, hres]
  dsimp only
  rw [hens]
  dsimp only
  rw [hemp]
  simp only [Bool.false_eq_true, if_false]
  rw [← hfd, hmk]
  dsimp only
  rw [if_pos hdir, hstage]

/-- C6: staging an unchanged source directory twice in copy-mode
(identical inputs, `overwrite=false`, destination disjoint from the
source subtree, a link-free filesystem, and the usual mutation-free
prelude — the destination root directories exist, which the first call
itself guarantees) performs zero file writes on the second call: the
second call's copy log is empty, the filesystem is returned unchanged,
and the same destination path is returned.  This holds because each file
either was copied by `copy2` — which preserves the modification time and
permission bits, so `_should_copy` now compares equal times — or was
already up to date. -/
theorem C6_copy_idempotent (env : Env) (fs0 fs1 : FS)
    (p labext dst full_dest : Path) (lg1 : List Path) (u sp : Bool) (lab : Option Path)
    (hres : _get_labextension_dir env u sp none lab = .ok labext)
    (hdst : dst ≠ [])
    (hfd : full_dest = normpath (labext ++ dst))
    (hd1 : ¬ abspath p <+: full_dest) (hd2 : ¬ full_dest <+: abspath p)
    (hdr : full_dest ≠ [])
    (hn : fs0.noLinks = true)
    (hnd : (destRelsOf (walkEntries fs0 (abspath p))).Nodup)
    (hens0 : ensure_dir_exists fs0 labext = .ok fs0)
    (hmk0 : makedirs fs0 (dirname full_dest) true = .ok fs0)
    (hdir0 : os_isdir fs0 p = true)
    (hens1 : ensure_dir_exists fs1 labext = .ok fs1)
    (hmk1 : makedirs fs1 (dirname full_dest) true = .ok fs1)
    (hdir1 : os_isdir fs1 p = true)
    (h1 : stageDirs (abspath p) full_dest fs0 (walkEntries fs0 (abspath p)) =
      (fs1, lg1, none)) :
    develop_labextension env fs0 (.str p) false false u lab (some dst) sp =
      ⟨fs1, lg1, .ok full_dest⟩
    ∧ develop_labextension env fs1 (.str p) false false u lab (some dst) sp =
      ⟨fs1, [], .ok full_dest⟩ := by
  have hidem := stageDirs_idem (abspath p) full_dest hd1 hd2 hdr _ fs0 fs1 lg1 h1 hn hnd
  have hview := stageDirs_view_src (abspath p) full_dest hd1 hd2 _ fs0 fs1 lg1 h1
  have hwalk := @walkEntries_view (abspath p) fs0 fs1 hview
  refine ⟨develop_copy_eq env fs0 p labext dst full_dest u sp lab hres hens0 hdst hfd
    hmk0 hdir0 fs1 lg1 h1, ?_⟩
  refine develop_copy_eq env fs1 p labext dst full_dest u sp lab hres hens1 hdst hfd
    hmk1 hdir1 fs1 [] ?_
  rw [hwalk]
  exact hidem.2.2.2

def fsC6 : FS := ⟨[(["opt"], .dir), (["src"], .dir), (["src", "a"], .file 5 7),
  (["src", "sub"], .dir), (["src", "sub", "b"], .file 9 6)]⟩

def fsC6staged : FS := ⟨[(["opt", "x", "sub", "b"], .file 9 6),
  (["opt", "x", "sub"], .dir), (["opt", "x", "a"], .file 5 7), (["opt", "x"], .dir),
  (["opt"], .dir), (["src"], .dir), (["src", "a"], .file 5 7),
  (["src", "sub"], .dir), (["src", "sub", "b"], .file 9 6)]⟩

/-- Witness for `C6_copy_idempotent`: copying the two-file tree `/src`
into `/opt/x` writes both files on the first call and nothing on the
second. -/
theorem C6_copy_idempotent_witness :
    develop_labextension ⟨["jd"], ["ej"], ["sj"]⟩ fsC6 (.str ["src"]) false false false
        (some cexPath) (some ["x"]) false =
      ⟨fsC6staged, [["opt", "x", "a"], ["opt", "x", "sub", "b"]], .ok ["opt", "x"]⟩
    ∧ develop_labextension ⟨["jd"], ["ej"], ["sj"]⟩ fsC6staged (.str ["src"]) false false
        false (some cexPath) (some ["x"]) false = ⟨fsC6staged, [], .ok ["opt", "x"]⟩ :=
  C6_copy_idempotent ⟨["jd"], ["ej"], ["sj"]⟩ fsC6 fsC6staged ["src"] cexPath ["x"]
    ["opt", "x"] [["opt", "x", "a"], ["opt", "x", "sub", "b"]] false false
    (some cexPath) (by decide) (by decide) (by decide) (by decide) (by decide)
    (by decide) (by decide) (by decide) (by decide) (by decide) (by decide)
    (by decide) (by decide) (by decide) (by decide)

end DynLabext
